import Mathlib

/-!
# Verification of the log event pipeline of vite-electron-starter

Shallow embedding of `modules/electron/src/logging/PipelineAppender.ts` and
`modules/electron/src/logging/RotatingFileAppender.ts`, together with proofs
of the specified properties.

JavaScript `Date` values are modelled as milliseconds since the Unix epoch
(`Int`); the machine-local timezone is modelled as UTC, so `getFullYear`,
`getHours`, ... are derived from the epoch value by the standard civil
calendar algorithms.  JavaScript strings are modelled as `String` / `List
Char`; `Buffer.byteLength(s, 'utf-8')` is `String.utf8ByteSize`.
-/

set_option maxHeartbeats 1000000
set_option maxRecDepth 100000

namespace VES

/-! ## JavaScript string primitives

`jsIndexOf s pat` models `s.indexOf(pat)` (position of the first occurrence),
`jsIndexOfFrom` models `s.indexOf(pat, start)`, `jsLastIndexOf` models
`s.lastIndexOf(pat)`.  All work on `List Char`. -/

def jsIndexOf : List Char → List Char → Option Nat
  | s, pat =>
    if pat.isPrefixOf s then some 0
    else
      match s with
      | [] => none
      | _ :: rest => (jsIndexOf rest pat).map (· + 1)

def jsIndexOfFrom (s pat : List Char) (start : Nat) : Option Nat :=
  (jsIndexOf (s.drop start) pat).map (· + start)

def jsLastIndexOf : List Char → List Char → Option Nat
  | s, pat =>
    match s with
    | [] => if pat.isPrefixOf ([] : List Char) then some 0 else none
    | c :: rest =>
      match jsLastIndexOf rest pat with
      | some i => some (i + 1)
      | none => if pat.isPrefixOf (c :: rest) then some 0 else none

/-- `jsIndexOf` returns an actual occurrence. -/
theorem jsIndexOf_isOcc {s pat : List Char} {n : Nat} (h : jsIndexOf s pat = some n) :
    pat.isPrefixOf (s.drop n) = true := by
  induction s generalizing n with
  | nil =>
    rw [jsIndexOf] at h
    by_cases hp : pat.isPrefixOf ([] : List Char)
    · simp [hp] at h
      subst h
      simpa using hp
    · simp [hp] at h
  | cons c rest ih =>
    rw [jsIndexOf] at h
    by_cases hp : pat.isPrefixOf (c :: rest)
    · simp [hp] at h
      subst h
      simpa using hp
    · simp [hp] at h
      obtain ⟨m, hm, rfl⟩ := h
      simpa using ih hm

/-- `jsIndexOf` returns the first occurrence: nothing matches earlier. -/
theorem jsIndexOf_min {s pat : List Char} {n : Nat} (h : jsIndexOf s pat = some n) :
    ∀ m < n, ¬ pat.isPrefixOf (s.drop m) = true := by
  induction s generalizing n with
  | nil =>
    rw [jsIndexOf] at h
    by_cases hp : pat.isPrefixOf ([] : List Char)
    · simp [hp] at h
      omega
    · simp [hp] at h
  | cons c rest ih =>
    rw [jsIndexOf] at h
    by_cases hp : pat.isPrefixOf (c :: rest)
    · simp [hp] at h
      omega
    · simp [hp] at h
      obtain ⟨k, hk, rfl⟩ := h
      intro m hm
      cases m with
      | zero => simpa using hp
      | succ m =>
        simpa using ih hk m (by omega)

/-- An occurrence below an upper bound where `jsIndexOf` finds none is absurd. -/
theorem jsIndexOf_none {s pat : List Char} (h : jsIndexOf s pat = none) :
    ∀ m, ¬ pat.isPrefixOf (s.drop m) = true := by
  induction s with
  | nil =>
    rw [jsIndexOf] at h
    by_cases hp : pat.isPrefixOf ([] : List Char)
    · simp [hp] at h
    · intro m
      simpa [List.drop_nil] using hp
  | cons c rest ih =>
    rw [jsIndexOf] at h
    by_cases hp : pat.isPrefixOf (c :: rest)
    · simp [hp] at h
    · simp [hp] at h
      intro m
      cases m with
      | zero => simpa using hp
      | succ m => simpa using ih h m

/-- `jsIndexOf` finds an occurrence whenever one exists. -/
theorem jsIndexOf_isSome {s pat : List Char} {m : Nat}
    (h : pat.isPrefixOf (s.drop m) = true) : (jsIndexOf s pat).isSome := by
  cases hj : jsIndexOf s pat with
  | some n => simp
  | none => exact absurd h (jsIndexOf_none hj m)

/-- Characterisation of `jsIndexOf` on an occurrence at the boundary of an
append, assuming no occurrence starts strictly inside the left part. -/
theorem jsIndexOf_append (a b pat : List Char)
    (hleft : ∀ m < a.length, ¬ pat.isPrefixOf ((a ++ b).drop m) = true)
    (hocc : pat.isPrefixOf b = true) :
    jsIndexOf (a ++ b) pat = some a.length := by
  cases hj : jsIndexOf (a ++ b) pat with
  | none =>
    exact absurd (by simpa using hocc) (jsIndexOf_none hj a.length)
  | some n =>
    have hoccn := jsIndexOf_isOcc hj
    have hmin := jsIndexOf_min hj
    rcases lt_trichotomy n a.length with hlt | heq | hgt
    · exact absurd hoccn (hleft n hlt)
    · rw [heq]
    · exact absurd (by simpa using hocc) (hmin a.length hgt)

/-! ## Pipeline data model (`PipelineAppender.ts`)

`ILogEvent.timestamp.getTime()` is modelled directly as `ts : Int`
(milliseconds).  `LogLevel` is an ordered numeric enum, modelled as `Nat`. -/

structure CallSite where
  file : String
  line : Nat
  column : Nat
  deriving Repr, DecidableEq

structure PEvent where
  level : Nat
  loggerName : String
  payload : List String
  ts : Int
  callSite : Option CallSite
  deriving Repr, DecidableEq

inductive EventOrigin where
  | Backend
  | Frontend
  deriving Repr, DecidableEq

structure BufferedEvent where
  event : PEvent
  origin : EventOrigin
  deriving Repr, DecidableEq

/-- `willHandle`: `!isPresent(this.level) || event.level >= this.level`. -/
def pWillHandle (lvl : Option Nat) (e : PEvent) : Bool :=
  match lvl with
  | none => true
  | some l => l ≤ e.level

/-- Timestamp of `buffer[i]` (`this.buffer[i].event.timestamp.getTime()`);
only ever consulted at indices `< buffer.length`. -/
def bufTs (buf : List BufferedEvent) (i : Nat) : Int :=
  ((buf.get? i).map (fun b => b.event.ts)).getD 0

/-- The binary-search loop of `insertIntoBuffer` (upper-bound position),
written with explicit fuel so that it reduces by structural recursion; the
`while (low < high)` loop shrinks `high - low` by at least one per
iteration, so `high - low` fuel is always enough. -/
def ubSearchF (buf : List BufferedEvent) (ts : Int) : Nat → Nat → Nat → Nat
  | 0, low, _ => low
  | fuel + 1, low, high =>
    if low < high then
      let mid := (low + high) / 2
      if bufTs buf mid ≤ ts then ubSearchF buf ts fuel (mid + 1) high
      else ubSearchF buf ts fuel low mid
    else low

def ubSearch (buf : List BufferedEvent) (ts : Int) (low high : Nat) : Nat :=
  ubSearchF buf ts (high - low) low high

/-- `insertIntoBuffer`: binary-search insertion position by timestamp
(stable on ties), then `splice(low, 0, entry)`. -/
def insertIntoBuffer (buf : List BufferedEvent) (e : PEvent) (origin : EventOrigin) :
    List BufferedEvent :=
  let idx := ubSearch buf e.ts 0 buf.length
  buf.take idx ++ ⟨e, origin⟩ :: buf.drop idx

/-- The counting loop of `flushUpTo` (`for ... if ts <= cutoff count++ else break`). -/
def countLe : List BufferedEvent → Int → Nat
  | [], _ => 0
  | b :: rest, c => if b.event.ts ≤ c then countLe rest c + 1 else 0

/-! ## Origin tagger / path shortening (`PipelineAppender.shortenPath`) -/

/-- The pattern "://". -/
def protoPat : List Char := [':', '/', '/']

/-- The pattern "/". -/
def slashPat : List Char := ['/']

/-- The pattern "src/". -/
def srcPat : List Char := ['s', 'r', 'c', '/']

/-- The pattern "file:///". -/
def fileUrlPat : List Char := ['f', 'i', 'l', 'e', ':', '/', '/', '/']

/-- Final step of `shortenPath`: `lastIndexOf('src/')`, keep the part after
the last occurrence when present. -/
def stripAfterLastSrc (p : List Char) : List Char :=
  match jsLastIndexOf p srcPat with
  | some i => p.drop (i + 4)
  | none => p

/-- Frontend branch of `shortenPath`: strip the URL origin (everything up
to and including the first `/` after the first `://`). -/
def frontendStrip (file : List Char) : List Char :=
  match jsIndexOf file protoPat with
  | some protocolEnd =>
    match jsIndexOfFrom file slashPat (protocolEnd + 3) with
    | some pathStart => file.drop (pathStart + 1)
    | none => file
  | none => file

/-- Backend branch of `shortenPath`: strip a `file:///` prefix
(`substring(7)`), then the configured `backendBasePath` when the remainder
starts with it (dropping one further leading `/`); the JS truthiness test
makes an empty base path behave like an absent one. -/
def backendStrip (basePath : Option (List Char)) (file : List Char) : List Char :=
  let f0 : List Char := if fileUrlPat.isPrefixOf file then file.drop 7 else file
  match basePath with
  | some bp =>
    if !bp.isEmpty && bp.isPrefixOf f0 then
      let stripped := f0.drop bp.length
      if slashPat.isPrefixOf stripped then stripped.drop 1 else stripped
    else f0
  | none => f0

/-- `shortenPath(file, origin)` on `List Char`. -/
def shortenPathL (basePath : Option (List Char)) (file : List Char)
    (origin : EventOrigin) : List Char :=
  match origin with
  | EventOrigin.Frontend => stripAfterLastSrc (frontendStrip file)
  | EventOrigin.Backend => stripAfterLastSrc (backendStrip basePath file)

/-- String-level wrapper of `shortenPathL`. -/
def shortenPath (basePath : Option String) (file : String) (origin : EventOrigin) : String :=
  String.mk (shortenPathL (basePath.map String.data) file.data origin)

/-- The pure content of `flushEntry`: rewrite `callSite.file` to the
origin-prefixed shortened path (events without a `callSite` are unmodified). -/
def tagEvent (basePath : Option String) (entry : BufferedEvent) : PEvent :=
  let e := entry.event
  match e.callSite with
  | some cs =>
    let pfx : String := if entry.origin = EventOrigin.Frontend then "Frontend: " else "Backend : "
    { e with callSite := some { cs with file := pfx ++ shortenPath basePath cs.file entry.origin } }
  | none => e

/-! ## Pipeline state machine

The pipeline state tracks the reorder buffer and the concatenation of every
event sequence handed to the delegates (each delegate receives the
subsequence of `flushed` accepted by its own `willHandle`). -/

structure PCfg where
  level : Option Nat
  backendBasePath : Option String

structure PState where
  buffer : List BufferedEvent
  flushed : List PEvent
  deriving Repr, DecidableEq

def PState.init : PState := ⟨[], []⟩

/-- `handle(event)` (backend path): level filter, insert, re-arm timer. -/
def pHandle (cfg : PCfg) (s : PState) (e : PEvent) : PState :=
  if pWillHandle cfg.level e then
    { s with buffer := insertIntoBuffer s.buffer e EventOrigin.Backend }
  else s

/-- `flushUpTo(cutoff)`: count the prefix with `ts <= cutoff`, splice it off
and flush each entry to the delegates. -/
def pFlushUpTo (cfg : PCfg) (s : PState) (cutoff : Int) : PState :=
  let count := countLe s.buffer cutoff
  { buffer := s.buffer.drop count,
    flushed := s.flushed ++ (s.buffer.take count).map (tagEvent cfg.backendBasePath) }

/-- `handleFrontendEvent(event)`: level filter, insert, flush up to the
event's own timestamp. -/
def pHandleFrontendEvent (cfg : PCfg) (s : PState) (e : PEvent) : PState :=
  if pWillHandle cfg.level e then
    let s1 := { s with buffer := insertIntoBuffer s.buffer e EventOrigin.Frontend }
    pFlushUpTo cfg s1 e.ts
  else s

/-- `flushAll()` (timer expiry and `close()`). -/
def pFlushAll (cfg : PCfg) (s : PState) : PState :=
  { buffer := [],
    flushed := s.flushed ++ s.buffer.map (tagEvent cfg.backendBasePath) }

/-- `close()`: clear the timer, flush everything, close the delegates. -/
def pClose (cfg : PCfg) (s : PState) : PState :=
  pFlushAll cfg s

/-- One externally-triggered pipeline action: a backend submission, a
frontend submission, or the expiry of the max-delay flush timer. -/
inductive POp where
  | backend (e : PEvent)
  | frontend (e : PEvent)
  | timer
  deriving Repr

def pStep (cfg : PCfg) (s : PState) (op : POp) : PState :=
  match op with
  | POp.backend e => pHandle cfg s e
  | POp.frontend e => pHandleFrontendEvent cfg s e
  | POp.timer => pFlushAll cfg s

def pRun (cfg : PCfg) (ops : List POp) : PState :=
  ops.foldl (pStep cfg) PState.init

/-- Run a trace of submissions/timer expiries and then `close()`. -/
def pRunClose (cfg : PCfg) (ops : List POp) : PState :=
  pClose cfg (pRun cfg ops)

/-! ## Sortedness of the reorder buffer -/

/-- The reorder-buffer invariant: adjacent timestamps are non-decreasing. -/
def BufSorted (buf : List BufferedEvent) : Prop :=
  List.Pairwise (fun a b => a.event.ts ≤ b.event.ts) buf

instance : DecidablePred BufSorted := fun buf =>
  inferInstanceAs (Decidable (List.Pairwise _ buf))

theorem bufTs_eq_getElem {buf : List BufferedEvent} {i : Nat} (h : i < buf.length) :
    bufTs buf i = buf[i].event.ts := by
  rw [bufTs, List.get?_eq_getElem?, List.getElem?_eq_getElem h]
  rfl

theorem bufTs_mono {buf : List BufferedEvent} (hs : BufSorted buf) {i j : Nat}
    (hij : i ≤ j) (hj : j < buf.length) : bufTs buf i ≤ bufTs buf j := by
  rcases Nat.eq_or_lt_of_le hij with rfl | hlt
  · exact le_refl _
  · have hi : i < buf.length := lt_trans hlt hj
    have := (List.pairwise_iff_getElem.mp hs) i j hi hj hlt
    rw [bufTs_eq_getElem hi, bufTs_eq_getElem hj]
    exact this

theorem ubSearchF_spec (buf : List BufferedEvent) (ts : Int) (hs : BufSorted buf)
    (fuel : Nat) :
    ∀ (low high : Nat), high - low ≤ fuel → low ≤ high → high ≤ buf.length →
    (∀ i < low, bufTs buf i ≤ ts) →
    (∀ i, high ≤ i → i < buf.length → ts < bufTs buf i) →
    (∀ i < ubSearchF buf ts fuel low high, bufTs buf i ≤ ts) ∧
    (∀ i, ubSearchF buf ts fuel low high ≤ i → i < buf.length → ts < bufTs buf i) ∧
    ubSearchF buf ts fuel low high ≤ buf.length := by
  induction fuel with
  | zero =>
    intro low high hfuel hlh hhb h1 h2
    have hle : high = low := by omega
    subst hle
    simp only [ubSearchF]
    exact ⟨h1, fun i hi hib => h2 i (by omega) hib, by omega⟩
  | succ fuel ih =>
    intro low high hfuel hlh hhb h1 h2
    rw [ubSearchF]
    by_cases h : low < high
    · simp only [h, if_pos]
      by_cases hmid : bufTs buf ((low + high) / 2) ≤ ts
      · simp only [hmid, if_pos]
        exact ih ((low + high) / 2 + 1) high (by omega) (by omega) hhb
          (fun i hi => le_trans (bufTs_mono hs (by omega) (by omega)) hmid) h2
      · simp only [hmid, if_neg, not_false_iff]
        exact ih low ((low + high) / 2) (by omega) (by omega) (by omega) h1
          (fun i hi hib => lt_of_lt_of_le (lt_of_not_le hmid) (bufTs_mono hs hi hib))
    · simp only [h, if_neg, not_false_iff]
      have hle : high = low := by omega
      subst hle
      exact ⟨h1, fun i hi hib => h2 i (by omega) hib, by omega⟩

/-- The insertion position found by `insertIntoBuffer` splits the sorted
buffer at the upper bound of the new timestamp. -/
theorem insertPos_spec (buf : List BufferedEvent) (ts : Int) (hs : BufSorted buf) :
    (∀ i < ubSearch buf ts 0 buf.length, bufTs buf i ≤ ts) ∧
    (∀ i, ubSearch buf ts 0 buf.length ≤ i → i < buf.length → ts < bufTs buf i) ∧
    ubSearch buf ts 0 buf.length ≤ buf.length :=
  ubSearchF_spec buf ts hs (buf.length - 0) 0 buf.length (le_refl _) (Nat.zero_le _)
    (le_refl _) (fun i hi => absurd hi (Nat.not_lt_zero i))
    (fun i hi hib => absurd hib (by omega))

theorem bufTs_eq_get {buf : List BufferedEvent} {i : Nat} (h : i < buf.length) :
    bufTs buf i = (buf.get ⟨i, h⟩).event.ts := by
  rw [bufTs_eq_getElem h, List.get_eq_getElem]

theorem mem_take_ts_le {buf : List BufferedEvent} {ts : Int} {idx : Nat}
    (h : ∀ i < idx, bufTs buf i ≤ ts) {b : BufferedEvent}
    (hb : b ∈ buf.take idx) : b.event.ts ≤ ts := by
  obtain ⟨n, hget⟩ := List.mem_iff_get.mp hb
  have hlen : (n : Nat) < idx ∧ (n : Nat) < buf.length := by
    have hlt := n.isLt
    have hlen2 : (List.take idx buf).length = min idx buf.length := List.length_take idx buf
    omega
  have hts := h n hlen.1
  rw [bufTs_eq_get hlen.2] at hts
  have hgeteq : (buf.take idx).get n = buf.get ⟨(n : Nat), hlen.2⟩ := by
    rw [List.get_eq_getElem, List.get_eq_getElem]
    exact List.getElem_take buf
  rw [hget] at hgeteq
  rw [← hgeteq] at hts
  exact hts

theorem mem_drop_ts_gt {buf : List BufferedEvent} {ts : Int} {idx : Nat}
    (h : ∀ i, idx ≤ i → i < buf.length → ts < bufTs buf i) {b : BufferedEvent}
    (hb : b ∈ buf.drop idx) : ts < b.event.ts := by
  obtain ⟨n, hget⟩ := List.mem_iff_get.mp hb
  have hilen : idx + (n : Nat) < buf.length := by
    have hlt := n.isLt
    have hlen2 : (List.drop idx buf).length = buf.length - idx := List.length_drop idx buf
    omega
  have hts := h (idx + n) (by omega) hilen
  rw [bufTs_eq_get hilen] at hts
  have hgeteq : (buf.drop idx).get n = buf.get ⟨idx + (n : Nat), hilen⟩ := by
    rw [List.get_eq_getElem, List.get_eq_getElem]
    exact (List.getElem_drop' buf hilen).symm
  rw [hget] at hgeteq
  rw [← hgeteq] at hts
  exact hts

/-- `insertIntoBuffer` preserves the sortedness invariant. -/
theorem insertIntoBuffer_sorted {buf : List BufferedEvent} (hs : BufSorted buf)
    (e : PEvent) (origin : EventOrigin) :
    BufSorted (insertIntoBuffer buf e origin) := by
  obtain ⟨hle, hgt, hbound⟩ := insertPos_spec buf e.ts hs
  set idx := ubSearch buf e.ts 0 buf.length with hidx
  have hsplit : buf = buf.take idx ++ buf.drop idx := (List.take_append_drop idx buf).symm
  have hsorted_take : BufSorted (buf.take idx) :=
    List.Pairwise.sublist (List.take_sublist idx buf) hs
  have hsorted_drop : BufSorted (buf.drop idx) :=
    List.Pairwise.sublist (List.drop_sublist idx buf) hs
  have hcross : ∀ a ∈ buf.take idx, ∀ b ∈ buf.drop idx, a.event.ts ≤ b.event.ts := by
    intro a ha b hb
    exact le_trans (mem_take_ts_le hle ha) (le_of_lt (mem_drop_ts_gt hgt hb))
  rw [insertIntoBuffer, BufSorted, List.pairwise_append]
  refine ⟨hsorted_take, ?_, ?_⟩
  · rw [List.pairwise_cons]
    exact ⟨fun b hb => le_of_lt (mem_drop_ts_gt hgt hb), hsorted_drop⟩
  · intro a ha b hb
    rcases List.mem_cons.mp hb with rfl | hb
    · exact mem_take_ts_le hle ha
    · exact hcross a ha b hb

/-! ## Behaviour of the flush prefix count on a sorted buffer -/

theorem take_countLe_eq_filter {c : Int} : ∀ {buf : List BufferedEvent}, BufSorted buf →
    buf.take (countLe buf c) = buf.filter (fun b => decide (b.event.ts ≤ c)) := by
  intro buf
  induction buf with
  | nil => intro _; simp [countLe]
  | cons b rest ih =>
    intro hs
    have hrest : BufSorted rest := (List.pairwise_cons.mp hs).2
    have hhd : ∀ x ∈ rest, b.event.ts ≤ x.event.ts := (List.pairwise_cons.mp hs).1
    rw [countLe]
    by_cases hb : b.event.ts ≤ c
    · rw [if_pos hb, List.take_succ_cons, List.filter_cons, if_pos (by simpa using hb),
        ih hrest]
    · rw [if_neg hb, List.take_zero, List.filter_cons, if_neg (by simpa using hb)]
      symm
      rw [List.filter_eq_nil_iff]
      intro a ha
      simp only [decide_eq_true_eq]
      intro hle
      exact hb (le_trans (hhd a ha) hle)

theorem drop_countLe_eq_filter {c : Int} : ∀ {buf : List BufferedEvent}, BufSorted buf →
    buf.drop (countLe buf c) = buf.filter (fun b => decide (c < b.event.ts)) := by
  intro buf
  induction buf with
  | nil => intro _; simp [countLe]
  | cons b rest ih =>
    intro hs
    have hrest : BufSorted rest := (List.pairwise_cons.mp hs).2
    have hhd : ∀ x ∈ rest, b.event.ts ≤ x.event.ts := (List.pairwise_cons.mp hs).1
    rw [countLe]
    by_cases hb : b.event.ts ≤ c
    · rw [if_pos hb, List.drop_succ_cons, List.filter_cons,
        if_neg (by simpa using not_lt.mpr hb), ih hrest]
    · rw [if_neg hb, List.drop_zero, List.filter_cons,
        if_pos (by simpa using lt_of_not_le hb)]
      congr 1
      symm
      rw [List.filter_eq_self]
      intro a ha
      simpa using lt_of_lt_of_le (lt_of_not_le hb) (hhd a ha)

theorem mem_take_countLe {c : Int} {buf : List BufferedEvent} {b : BufferedEvent}
    (hs : BufSorted buf) (hb : b ∈ buf.take (countLe buf c)) : b.event.ts ≤ c := by
  rw [take_countLe_eq_filter hs] at hb
  simpa using (List.mem_filter.mp hb).2

theorem mem_drop_countLe {c : Int} {buf : List BufferedEvent} {b : BufferedEvent}
    (hs : BufSorted buf) (hb : b ∈ buf.drop (countLe buf c)) : c < b.event.ts := by
  rw [drop_countLe_eq_filter hs] at hb
  simpa using (List.mem_filter.mp hb).2

/-- Tagging never changes an event's timestamp. -/
theorem tagEvent_ts (bp : Option String) (entry : BufferedEvent) :
    (tagEvent bp entry).ts = entry.event.ts := by
  rw [tagEvent]
  cases entry.event.callSite <;> rfl

/-- Membership in the spliced buffer after an insertion. -/
theorem mem_insertIntoBuffer {buf : List BufferedEvent} {e : PEvent} {o : EventOrigin}
    {b : BufferedEvent} (h : b ∈ insertIntoBuffer buf e o) :
    b = ⟨e, o⟩ ∨ b ∈ buf := by
  rw [insertIntoBuffer] at h
  rcases List.mem_append.mp h with h | h
  · exact Or.inr (List.take_subset _ _ h)
  · rcases List.mem_cons.mp h with h | h
    · exact Or.inl h
    · exact Or.inr (List.drop_subset _ _ h)

/-! ## Global flush-order invariant -/

/-- Non-decreasing timestamps along a flushed sequence. -/
def FlushSorted (l : List PEvent) : Prop :=
  List.Pairwise (fun a b => a.ts ≤ b.ts) l

instance : DecidablePred FlushSorted := fun l =>
  inferInstanceAs (Decidable (List.Pairwise _ l))

/-- Pipeline invariant: buffer sorted, flushed output sorted, and everything
still buffered is no older than anything already flushed. -/
def PInv (s : PState) : Prop :=
  BufSorted s.buffer ∧ FlushSorted s.flushed ∧
  ∀ f ∈ s.flushed, ∀ b ∈ s.buffer, f.ts ≤ b.event.ts

theorem pInv_init : PInv PState.init :=
  ⟨List.Pairwise.nil, List.Pairwise.nil, by intro f hf; simp [PState.init] at hf⟩

theorem pFlushUpTo_inv {cfg : PCfg} {s : PState} {cutoff : Int} (h : PInv s) :
    PInv (pFlushUpTo cfg s cutoff) := by
  obtain ⟨hbuf, hfl, hcross⟩ := h
  refine ⟨?_, ?_, ?_⟩
  · exact List.Pairwise.sublist (List.drop_sublist _ _) hbuf
  · rw [pFlushUpTo, FlushSorted, List.pairwise_append]
    refine ⟨hfl, ?_, ?_⟩
    · exact List.Pairwise.map _
        (fun a b hab => by rw [tagEvent_ts, tagEvent_ts]; exact hab)
        (List.Pairwise.sublist (List.take_sublist _ _) hbuf)
    · intro f hf t ht
      obtain ⟨x, hx, rfl⟩ := List.mem_map.mp ht
      rw [tagEvent_ts]
      exact hcross f hf x (List.take_subset _ _ hx)
  · intro f hf b hb
    simp only [pFlushUpTo] at hf hb
    rcases List.mem_append.mp hf with hf | hf
    · exact hcross f hf b (List.drop_subset _ _ hb)
    · obtain ⟨x, hx, rfl⟩ := List.mem_map.mp hf
      rw [tagEvent_ts]
      exact le_trans (mem_take_countLe hbuf hx) (le_of_lt (mem_drop_countLe hbuf hb))

theorem pFlushAll_inv {cfg : PCfg} {s : PState} (h : PInv s) :
    PInv (pFlushAll cfg s) := by
  obtain ⟨hbuf, hfl, hcross⟩ := h
  refine ⟨List.Pairwise.nil, ?_, ?_⟩
  · rw [pFlushAll, FlushSorted, List.pairwise_append]
    refine ⟨hfl, ?_, ?_⟩
    · exact List.Pairwise.map _
        (fun a b hab => by rw [tagEvent_ts, tagEvent_ts]; exact hab) hbuf
    · intro f hf t ht
      obtain ⟨x, hx, rfl⟩ := List.mem_map.mp ht
      rw [tagEvent_ts]
      exact hcross f hf x hx
  · intro f _ b hb
    simp [pFlushAll] at hb

theorem insert_inv {s : PState} {e : PEvent} {o : EventOrigin} (h : PInv s)
    (hadm : ∀ f ∈ s.flushed, f.ts ≤ e.ts) :
    PInv { s with buffer := insertIntoBuffer s.buffer e o } := by
  obtain ⟨hbuf, hfl, hcross⟩ := h
  refine ⟨insertIntoBuffer_sorted hbuf e o, hfl, ?_⟩
  intro f hf b hb
  rcases mem_insertIntoBuffer hb with rfl | hb
  · exact hadm f hf
  · exact hcross f hf b hb

theorem pHandle_inv {cfg : PCfg} {s : PState} {e : PEvent} (h : PInv s)
    (hadm : ∀ f ∈ s.flushed, f.ts ≤ e.ts) : PInv (pHandle cfg s e) := by
  rw [pHandle]
  by_cases hw : pWillHandle cfg.level e
  · rw [if_pos hw]
    exact insert_inv h hadm
  · rw [if_neg hw]
    exact h

theorem pHandleFrontendEvent_inv {cfg : PCfg} {s : PState} {e : PEvent} (h : PInv s)
    (hadm : ∀ f ∈ s.flushed, f.ts ≤ e.ts) : PInv (pHandleFrontendEvent cfg s e) := by
  rw [pHandleFrontendEvent]
  by_cases hw : pWillHandle cfg.level e
  · rw [if_pos hw]
    exact pFlushUpTo_inv (insert_inv h hadm)
  · rw [if_neg hw]
    exact h

/-- Decidable watermark admissibility of a trace from a given state: each
accepted submission's timestamp is at least every already-flushed timestamp. -/
def pAdmissible (cfg : PCfg) : PState → List POp → Bool
  | _, [] => true
  | s, op :: rest =>
    (match op with
     | POp.backend e => !pWillHandle cfg.level e || s.flushed.all (fun f => f.ts ≤ e.ts)
     | POp.frontend e => !pWillHandle cfg.level e || s.flushed.all (fun f => f.ts ≤ e.ts)
     | POp.timer => true) && pAdmissible cfg (pStep cfg s op) rest

theorem pStep_inv {cfg : PCfg} {s : PState} {op : POp} (h : PInv s)
    (hadm : (match op with
             | POp.backend e => !pWillHandle cfg.level e || s.flushed.all (fun f => f.ts ≤ e.ts)
             | POp.frontend e => !pWillHandle cfg.level e || s.flushed.all (fun f => f.ts ≤ e.ts)
             | POp.timer => true) = true) : PInv (pStep cfg s op) := by
  cases op with
  | backend e =>
    rw [pStep]
    simp only [Bool.or_eq_true, Bool.not_eq_true'] at hadm
    rcases hadm with hadm | hadm
    · rw [pHandle, hadm]
      simpa using h
    · exact pHandle_inv h (fun f hf => by
        have := List.all_eq_true.mp hadm f hf
        simpa using this)
  | frontend e =>
    rw [pStep]
    simp only [Bool.or_eq_true, Bool.not_eq_true'] at hadm
    rcases hadm with hadm | hadm
    · rw [pHandleFrontendEvent, hadm]
      simpa using h
    · exact pHandleFrontendEvent_inv h (fun f hf => by
        have := List.all_eq_true.mp hadm f hf
        simpa using this)
  | timer =>
    rw [pStep]
    exact pFlushAll_inv h

theorem pFold_inv (cfg : PCfg) : ∀ (ops : List POp) (s : PState), PInv s →
    pAdmissible cfg s ops = true → PInv (ops.foldl (pStep cfg) s) := by
  intro ops
  induction ops with
  | nil => intro s h _; exact h
  | cons op rest ih =>
    intro s h hadm
    rw [pAdmissible.eq_def, Bool.and_eq_true] at hadm
    exact ih (pStep cfg s op) (pStep_inv h hadm.1) hadm.2

theorem pStep_bufSorted {cfg : PCfg} {s : PState} {op : POp}
    (h : BufSorted s.buffer) : BufSorted (pStep cfg s op).buffer := by
  cases op with
  | backend e =>
    rw [pStep, pHandle]
    by_cases hw : pWillHandle cfg.level e
    · rw [if_pos hw]
      exact insertIntoBuffer_sorted h e _
    · rw [if_neg hw]; exact h
  | frontend e =>
    rw [pStep, pHandleFrontendEvent]
    by_cases hw : pWillHandle cfg.level e
    · rw [if_pos hw]
      exact List.Pairwise.sublist (List.drop_sublist _ _)
        (insertIntoBuffer_sorted h e _)
    · rw [if_neg hw]; exact h
  | timer =>
    exact List.Pairwise.nil

theorem pFold_bufSorted (cfg : PCfg) : ∀ (ops : List POp) (s : PState),
    BufSorted s.buffer → BufSorted (ops.foldl (pStep cfg) s).buffer := by
  intro ops
  induction ops with
  | nil => intro s h; exact h
  | cons op rest ih => intro s h; exact ih _ (pStep_bufSorted h)

/-! ## Claims C1 and C2 -/

/-- Simple test event without a call site at a given timestamp. -/
def evAt (t : Int) : PEvent :=
  { level := 3, loggerName := "test", payload := [], ts := t, callSite := none }

/-- Pipeline configuration with no level filter and no base path. -/
def pcfg0 : PCfg := { level := none, backendBasePath := none }

/-- C1, counterexample: the claim quantifies over any interleaving of
backend and frontend submissions, but after a frontend submission at T=250
has flushed the buffer, a backend submission at T=220 is flushed later by
close, so the concatenation of all flushed sequences is 200, 250, 220 —
not sorted. -/
theorem c1_counterexample :
    ¬ FlushSorted (pRunClose pcfg0
      [POp.backend (evAt 200), POp.frontend (evAt 250), POp.backend (evAt 220)]).flushed := by
  decide

/-- C1 (amended): after every step of any interleaving of backend
submissions, frontend submissions and timer expiries, the reorder buffer
satisfies buffer[i].timestamp <= buffer[i+1].timestamp; and provided every
accepted submission carries a timestamp at least as large as every
already-flushed timestamp (the watermark assumption), the concatenation of
all event sequences delivered across all flushes up to and including
close() is sorted non-decreasing by timestamp — as is the subsequence
accepted by any single delegate's filter. -/
theorem c1_buffer_and_flush_order (cfg : PCfg) (ops : List POp) :
    BufSorted (pRun cfg ops).buffer ∧
    (pAdmissible cfg PState.init ops = true →
      FlushSorted (pRunClose cfg ops).flushed ∧
      ∀ p : PEvent → Bool, FlushSorted ((pRunClose cfg ops).flushed.filter p)) := by
  constructor
  · exact pFold_bufSorted cfg ops PState.init List.Pairwise.nil
  · intro hadm
    have hinv : PInv (pRunClose cfg ops) :=
      pFlushAll_inv (pFold_inv cfg ops PState.init pInv_init hadm)
    exact ⟨hinv.2.1, fun p => List.Pairwise.sublist (List.filter_sublist _) hinv.2.1⟩

/-- C1 witness at a concrete admissible trace. -/
theorem c1_buffer_and_flush_order_witness :
    BufSorted (pRun pcfg0
      [POp.backend (evAt 100), POp.frontend (evAt 150), POp.backend (evAt 200), POp.timer]).buffer ∧
    FlushSorted (pRunClose pcfg0
      [POp.backend (evAt 100), POp.frontend (evAt 150), POp.backend (evAt 200), POp.timer]).flushed ∧
    FlushSorted ((pRunClose pcfg0
      [POp.backend (evAt 100), POp.frontend (evAt 150), POp.backend (evAt 200), POp.timer]).flushed.filter
        (fun e => decide (3 ≤ e.level))) :=
  ⟨(c1_buffer_and_flush_order pcfg0 _).1,
   ((c1_buffer_and_flush_order pcfg0 _).2 (by decide)).1,
   ((c1_buffer_and_flush_order pcfg0 _).2 (by decide)).2 _⟩

/-- C2: for every sorted buffer state and frontend event passing the level
filter, handleFrontendEvent appends to the delivered output exactly the
events of the post-insertion buffer with timestamp <= T, tagged, in
ascending timestamp order, and leaves buffered exactly those with
timestamp > T. -/
theorem c2_frontend_flush_exact (cfg : PCfg) (s : PState) (e : PEvent)
    (hs : BufSorted s.buffer) (hw : pWillHandle cfg.level e = true) :
    (pHandleFrontendEvent cfg s e).flushed =
      s.flushed ++ ((insertIntoBuffer s.buffer e EventOrigin.Frontend).filter
        (fun b => decide (b.event.ts ≤ e.ts))).map (tagEvent cfg.backendBasePath) ∧
    FlushSorted (((insertIntoBuffer s.buffer e EventOrigin.Frontend).filter
        (fun b => decide (b.event.ts ≤ e.ts))).map (tagEvent cfg.backendBasePath)) ∧
    (pHandleFrontendEvent cfg s e).buffer =
      (insertIntoBuffer s.buffer e EventOrigin.Frontend).filter
        (fun b => decide (e.ts < b.event.ts)) := by
  have hins : BufSorted (insertIntoBuffer s.buffer e EventOrigin.Frontend) :=
    insertIntoBuffer_sorted hs e _
  rw [pHandleFrontendEvent, if_pos hw]
  refine ⟨?_, ?_, ?_⟩
  · rw [pFlushUpTo]
    simp only
    rw [take_countLe_eq_filter hins]
  · exact List.Pairwise.map _ (fun a b hab => by rw [tagEvent_ts, tagEvent_ts]; exact hab)
      (List.Pairwise.sublist (List.filter_sublist _) hins)
  · rw [pFlushUpTo]
    simp only
    rw [drop_countLe_eq_filter hins]

/-- C2 witness: after backend submissions at T=100 and T=200, a frontend
submission at T=150 flushes exactly the events at 100 and 150 in that
order, and the event at 200 stays buffered. -/
theorem c2_frontend_flush_exact_witness :
    ((pHandleFrontendEvent pcfg0 (pRun pcfg0 [POp.backend (evAt 100), POp.backend (evAt 200)])
        (evAt 150)).flushed =
      (pRun pcfg0 [POp.backend (evAt 100), POp.backend (evAt 200)]).flushed ++
        ((insertIntoBuffer (pRun pcfg0 [POp.backend (evAt 100), POp.backend (evAt 200)]).buffer
          (evAt 150) EventOrigin.Frontend).filter
            (fun b => decide (b.event.ts ≤ (evAt 150).ts))).map (tagEvent pcfg0.backendBasePath)) ∧
    ((pHandleFrontendEvent pcfg0 (pRun pcfg0 [POp.backend (evAt 100), POp.backend (evAt 200)])
        (evAt 150)).flushed = [evAt 100, evAt 150] ∧
     (pHandleFrontendEvent pcfg0 (pRun pcfg0 [POp.backend (evAt 100), POp.backend (evAt 200)])
        (evAt 150)).buffer = [⟨evAt 200, EventOrigin.Backend⟩]) :=
  ⟨(c2_frontend_flush_exact pcfg0 _ (evAt 150) (by decide) (by decide)).1, by decide⟩

/-! ## Characterisation of `jsLastIndexOf` and occurrence helpers -/

theorem isPrefixOf_cons_head {c : Char} {cs l : List Char}
    (h : (c :: cs).isPrefixOf l = true) : ∃ t, l = c :: t := by
  cases l with
  | nil => simp [List.isPrefixOf] at h
  | cons d t =>
    rw [List.isPrefixOf, Bool.and_eq_true, beq_iff_eq] at h
    exact ⟨t, by rw [h.1]⟩

/-- An occurrence of a pattern starting inside the left part of an append
puts the pattern's first character into the left part. -/
theorem occ_in_left {a b : List Char} {c : Char} {cs : List Char} {m : Nat}
    (hm : m < a.length) (h : (c :: cs).isPrefixOf ((a ++ b).drop m) = true) : c ∈ a := by
  obtain ⟨t, ht⟩ := isPrefixOf_cons_head h
  have hlen : m < (a ++ b).length := by rw [List.length_append]; omega
  rw [List.drop_eq_getElem_cons hlen] at ht
  have hc : (a ++ b)[m] = c := by
    exact (List.cons.injEq _ _ _ _).mp ht |>.1
  rw [List.getElem_append_left hm] at hc
  rw [← hc]
  exact List.getElem_mem hm

theorem jsLastIndexOf_isOcc {pat : List Char} : ∀ {s : List Char} {n : Nat},
    jsLastIndexOf s pat = some n → pat.isPrefixOf (s.drop n) = true := by
  intro s
  induction s with
  | nil =>
    intro n h
    rw [jsLastIndexOf] at h
    by_cases hp : pat.isPrefixOf ([] : List Char)
    · simp [hp] at h
      subst h
      simpa using hp
    · simp [hp] at h
  | cons c rest ih =>
    intro n h
    rw [jsLastIndexOf] at h
    cases hr : jsLastIndexOf rest pat with
    | some i =>
      rw [hr] at h
      injection h with h
      subst h
      simpa using ih hr
    | none =>
      rw [hr] at h
      by_cases hp : pat.isPrefixOf (c :: rest)
      · simp [hp] at h
        subst h
        simpa using hp
      · simp [hp] at h

theorem jsLastIndexOf_none {pat : List Char} (hpat : pat ≠ []) : ∀ {s : List Char},
    jsLastIndexOf s pat = none → ∀ m, ¬ pat.isPrefixOf (s.drop m) = true := by
  intro s
  induction s with
  | nil =>
    intro _ m
    cases pat with
    | nil => exact absurd rfl hpat
    | cons p ps => simp [List.isPrefixOf]
  | cons c rest ih =>
    intro h m
    rw [jsLastIndexOf] at h
    cases hr : jsLastIndexOf rest pat with
    | some i => rw [hr] at h; simp at h
    | none =>
      rw [hr] at h
      by_cases hp : pat.isPrefixOf (c :: rest)
      · simp [hp] at h
      · cases m with
        | zero => simpa using hp
        | succ m => simpa using ih hr m

theorem jsLastIndexOf_max {pat : List Char} (hpat : pat ≠ []) : ∀ {s : List Char} {n : Nat},
    jsLastIndexOf s pat = some n → ∀ m, n < m → ¬ pat.isPrefixOf (s.drop m) = true := by
  intro s
  induction s with
  | nil =>
    intro n h m hm
    rw [jsLastIndexOf] at h
    cases pat with
    | nil => exact absurd rfl hpat
    | cons p ps => simp [List.isPrefixOf] at h ⊢
  | cons c rest ih =>
    intro n h m hm
    rw [jsLastIndexOf] at h
    cases hr : jsLastIndexOf rest pat with
    | some i =>
      rw [hr] at h
      injection h with h
      subst h
      cases m with
      | zero => omega
      | succ m => simpa using ih hr m (by omega)
    | none =>
      rw [hr] at h
      by_cases hp : pat.isPrefixOf (c :: rest)
      · simp [hp] at h
        subst h
        cases m with
        | zero => omega
        | succ m => simpa using jsLastIndexOf_none hpat hr m
      · simp [hp] at h

/-! ## Claim C9 -/

theorem srcPat_ne_nil : srcPat ≠ [] := by simp [srcPat]

/-- C9: the path-shortening function (pure by construction in this model,
as in the source, which only rebinds a local) satisfies: for Frontend
origin a leading scheme://authority/ segment is stripped; for Backend
origin a leading file:// prefix is stripped (leaving the absolute path)
and then the configured base path when the remainder starts with it; for
both origins the result keeps only the portion after the last src/
occurrence when one exists; a path with no recognizable prefix and no src/
segment is returned unchanged; and a flushed event's callSite.file is
exactly the literal origin prefix followed by the shortened path, while an
event without a callSite is flushed unmodified. -/
theorem c9_shorten_path :
    (∀ scheme auth rest : List Char, ':' ∉ scheme → '/' ∉ auth →
      shortenPathL none (scheme ++ protoPat ++ auth ++ slashPat ++ rest)
          EventOrigin.Frontend = stripAfterLastSrc rest) ∧
    (∀ (bp : Option (List Char)) (p : List Char),
      shortenPathL bp (fileUrlPat ++ p) EventOrigin.Backend =
        shortenPathL bp (slashPat ++ p) EventOrigin.Backend) ∧
    (∀ b f : List Char, b ≠ [] → b.isPrefixOf f = true →
      fileUrlPat.isPrefixOf f = false →
      shortenPathL (some b) f EventOrigin.Backend =
        stripAfterLastSrc
          (if slashPat.isPrefixOf (f.drop b.length) then (f.drop b.length).drop 1
           else f.drop b.length)) ∧
    (∀ (f : List Char) (i : Nat), jsLastIndexOf f srcPat = some i →
      stripAfterLastSrc f = f.drop (i + 4) ∧
      srcPat.isPrefixOf (f.drop i) = true ∧
      ∀ m, i < m → ¬ srcPat.isPrefixOf (f.drop m) = true) ∧
    (∀ (f : List Char) (bp : Option (List Char)), jsIndexOf f protoPat = none →
      jsLastIndexOf f srcPat = none →
      shortenPathL bp f EventOrigin.Frontend = f) ∧
    (∀ (f : List Char) (bp : Option (List Char)),
      fileUrlPat.isPrefixOf f = false →
      (∀ b, bp = some b → (!b.isEmpty && b.isPrefixOf f) = false) →
      jsLastIndexOf f srcPat = none →
      shortenPathL bp f EventOrigin.Backend = f) ∧
    (∀ (bp : Option String) (e : PEvent) (cs : CallSite) (o : EventOrigin),
      e.callSite = some cs →
      (tagEvent bp ⟨e, o⟩).callSite = some { cs with
        file := (if o = EventOrigin.Frontend then "Frontend: " else "Backend : ") ++
          shortenPath bp cs.file o }) ∧
    (∀ (bp : Option String) (e : PEvent) (o : EventOrigin),
      e.callSite = none → tagEvent bp ⟨e, o⟩ = e) := by
  refine ⟨?_, ?_, ?_, ?_, ?_, ?_, ?_, ?_⟩
  · intro scheme auth rest hs1 ha
    have hidx : jsIndexOf (scheme ++ (protoPat ++ (auth ++ (slashPat ++ rest)))) protoPat
        = some scheme.length := by
      apply jsIndexOf_append
      · intro m hm hpre
        exact hs1 (occ_in_left hm hpre)
      · rw [List.isPrefixOf_iff_prefix]
        exact List.prefix_append _ _
    have hdrop3 : (scheme ++ (protoPat ++ (auth ++ (slashPat ++ rest)))).drop
        (scheme.length + 3) = auth ++ (slashPat ++ rest) := by
      rw [show scheme ++ (protoPat ++ (auth ++ (slashPat ++ rest)))
            = (scheme ++ protoPat) ++ (auth ++ (slashPat ++ rest)) by
          rw [List.append_assoc]]
      apply List.drop_left'
      simp [protoPat]
    have hinner : jsIndexOf (auth ++ (slashPat ++ rest)) slashPat = some auth.length := by
      apply jsIndexOf_append
      · intro m hm hpre
        exact ha (occ_in_left hm hpre)
      · rw [List.isPrefixOf_iff_prefix]
        exact List.prefix_append _ _
    have hfrom : jsIndexOfFrom (scheme ++ (protoPat ++ (auth ++ (slashPat ++ rest))))
        slashPat (scheme.length + 3) = some (auth.length + (scheme.length + 3)) := by
      rw [jsIndexOfFrom, hdrop3, hinner]
      rfl
    have hlast : (scheme ++ (protoPat ++ (auth ++ (slashPat ++ rest)))).drop
        (auth.length + (scheme.length + 3) + 1) = rest := by
      rw [show scheme ++ (protoPat ++ (auth ++ (slashPat ++ rest)))
            = (scheme ++ protoPat ++ auth ++ slashPat) ++ rest by
          simp [List.append_assoc]]
      apply List.drop_left'
      simp [protoPat, slashPat]
      omega
    show stripAfterLastSrc (frontendStrip _) = _
    rw [frontendStrip]
    simp only [List.append_assoc] at hidx hfrom hlast ⊢
    rw [hidx]
    simp only
    rw [hfrom]
    simp only
    rw [hlast]
  · intro bp p
    show stripAfterLastSrc (backendStrip bp (fileUrlPat ++ p)) =
      stripAfterLastSrc (backendStrip bp (slashPat ++ p))
    have h1 : fileUrlPat.isPrefixOf (fileUrlPat ++ p) = true := by
      rw [List.isPrefixOf_iff_prefix]
      exact List.prefix_append _ _
    have h2 : fileUrlPat.isPrefixOf (slashPat ++ p) = false := by
      show (('f' == '/') && _) = false
      rw [show ('f' == '/') = false by decide, Bool.false_and]
    have h3 : (fileUrlPat ++ p).drop 7 = slashPat ++ p := by
      simp [fileUrlPat, slashPat]
    rw [backendStrip.eq_def, backendStrip.eq_def, h1, h2, h3]
    simp
  · intro b f hbne hpre hnof
    show stripAfterLastSrc (backendStrip (some b) f) = _
    have hne : b.isEmpty = false := by
      cases b with
      | nil => exact absurd rfl hbne
      | cons x xs => rfl
    rw [backendStrip.eq_def]
    simp only [hnof, Bool.false_eq_true, if_false, hne, hpre, Bool.not_false,
      Bool.and_self, if_true]
  · intro f i hocc
    refine ⟨?_, jsLastIndexOf_isOcc hocc, jsLastIndexOf_max srcPat_ne_nil hocc⟩
    rw [stripAfterLastSrc, hocc]
  · intro f bp hnone hsrc
    show stripAfterLastSrc (frontendStrip f) = f
    rw [frontendStrip, hnone]
    simp only
    rw [stripAfterLastSrc, hsrc]
  · intro f bp hnof hbpc hsrc
    show stripAfterLastSrc (backendStrip bp f) = f
    rw [backendStrip.eq_def]
    simp only [hnof, Bool.false_eq_true, if_false]
    cases bp with
    | none =>
      simp only
      rw [stripAfterLastSrc, hsrc]
    | some b =>
      simp only [hbpc b rfl, Bool.false_eq_true, if_false]
      rw [stripAfterLastSrc, hsrc]
  · intro bp e cs o hcs
    rw [tagEvent]
    simp only [hcs]
  · intro bp e o hcs
    rw [tagEvent]
    simp only [hcs]

/-- Concrete event with a frontend dev-server call site, for witnesses. -/
def evWithCS : PEvent where
  level := 3
  loggerName := "t"
  payload := []
  ts := 0
  callSite := some ⟨"http://localhost:5173/src/index.ts", 1, 1⟩

/-- Concrete event without a call site, for witnesses. -/
def evNoCS : PEvent where
  level := 3
  loggerName := "t"
  payload := []
  ts := 0
  callSite := none

/-- C9 witness: every part of the path-shortening theorem instantiated at
concrete paths (mirroring the repository's own examples). -/
theorem c9_shorten_path_witness :
    (shortenPathL none ("http".data ++ protoPat ++ "localhost:5173".data ++ slashPat ++
        "src/index.ts".data) EventOrigin.Frontend = stripAfterLastSrc "src/index.ts".data) ∧
    (shortenPathL (some "/b".data) (fileUrlPat ++ "b/src/m.ts".data) EventOrigin.Backend =
      shortenPathL (some "/b".data) (slashPat ++ "b/src/m.ts".data) EventOrigin.Backend) ∧
    (shortenPathL (some "/b".data) "/b/modules/src/m.ts".data EventOrigin.Backend =
      stripAfterLastSrc
        (if slashPat.isPrefixOf ("/b/modules/src/m.ts".data.drop "/b".data.length)
         then ("/b/modules/src/m.ts".data.drop "/b".data.length).drop 1
         else "/b/modules/src/m.ts".data.drop "/b".data.length)) ∧
    (stripAfterLastSrc "x/src/a.ts".data = "x/src/a.ts".data.drop (2 + 4) ∧
      srcPat.isPrefixOf ("x/src/a.ts".data.drop 2) = true ∧
      ∀ m, 2 < m → ¬ srcPat.isPrefixOf ("x/src/a.ts".data.drop m) = true) ∧
    (shortenPathL none "plain-file.ts".data EventOrigin.Frontend = "plain-file.ts".data) ∧
    (shortenPathL (some "/other".data) "/some/absolute/path/main.ts".data
        EventOrigin.Backend = "/some/absolute/path/main.ts".data) ∧
    ((tagEvent none ⟨evWithCS, EventOrigin.Frontend⟩).callSite =
      some { (⟨"http://localhost:5173/src/index.ts", 1, 1⟩ : CallSite) with
        file := (if EventOrigin.Frontend = EventOrigin.Frontend
                 then "Frontend: " else "Backend : ") ++
          shortenPath none "http://localhost:5173/src/index.ts" EventOrigin.Frontend }) ∧
    (tagEvent none ⟨evNoCS, EventOrigin.Backend⟩ = evNoCS) :=
  ⟨c9_shorten_path.1 "http".data "localhost:5173".data "src/index.ts".data
      (by decide) (by decide),
   c9_shorten_path.2.1 (some "/b".data) "b/src/m.ts".data,
   c9_shorten_path.2.2.1 "/b".data "/b/modules/src/m.ts".data
      (by decide) (by decide) (by decide),
   c9_shorten_path.2.2.2.1 "x/src/a.ts".data 2 (by decide),
   c9_shorten_path.2.2.2.2.1 "plain-file.ts".data none (by decide) (by decide),
   c9_shorten_path.2.2.2.2.2.1 "/some/absolute/path/main.ts".data (some "/other".data)
      (by decide) (by intro b hb; injection hb with hb; subst hb; decide) (by decide),
   c9_shorten_path.2.2.2.2.2.2.1 none evWithCS ⟨"http://localhost:5173/src/index.ts", 1, 1⟩
      EventOrigin.Frontend rfl,
   c9_shorten_path.2.2.2.2.2.2.2 none evNoCS EventOrigin.Backend rfl⟩

/-! ## Claim C6: heap-level model of `flushEntry`

To talk about object identity (shallow copies, shared references), the
relevant JS objects are placed in an explicit heap: addresses are list
indices.  The statement `event.callSite = {...event.callSite, file: ...}`
allocates a fresh call-site object and redirects the event's field to it;
the loop over `Object.entries(this._delegates)` then hands the SAME event
reference to every delegate whose `willHandle` accepts it. -/

structure EventObj where
  level : Nat
  loggerName : String
  payload : List String
  ts : Int
  callSiteRef : Option Nat
  deriving Repr, DecidableEq

structure JSHeap where
  callSites : List CallSite
  events : List EventObj
  deriving Repr, DecidableEq

/-- Heap-level `flushEntry`: returns the updated heap and, per accepting
delegate, the event reference passed to its `handle`. -/
def flushEntryAlloc (bp : Option String) (h : JSHeap) (eref : Nat)
    (origin : EventOrigin) (delegates : List String) (wills : String → Bool) :
    JSHeap × List (String × Nat) :=
  match h.events[eref]? with
  | none => (h, [])
  | some ev =>
    let h1 : JSHeap :=
      match ev.callSiteRef with
      | some csref =>
        match h.callSites[csref]? with
        | some cs =>
          let pfx : String :=
            if origin = EventOrigin.Frontend then "Frontend: " else "Backend : "
          let newCS : CallSite := { cs with file := pfx ++ shortenPath bp cs.file origin }
          { callSites := h.callSites ++ [newCS],
            events := h.events.set eref { ev with callSiteRef := some h.callSites.length } }
        | none => h
      | none => h
    (h1, (delegates.filter wills).map (fun name => (name, eref)))

/-- C6 counterexample: with two registered delegates, the two delegates do
not receive their own logical copies — they are handed the same event
object reference. -/
theorem c6_counterexample :
    ¬ List.Pairwise (fun a b => a.2 ≠ b.2)
        (flushEntryAlloc none
          ⟨[⟨"original.ts", 1, 1⟩], [⟨3, "t", [], 0, some 0⟩]⟩
          0 EventOrigin.Backend ["CONSOLE", "FILE"] (fun _ => true)).2 := by
  decide

/-- C6 (amended): for every flushed event with a call site, tagging
allocates a fresh call-site object (its address lies past every
pre-existing one) holding the prefixed shortened path, every pre-existing
call-site object — in particular the original buffered one — is left
unmodified, and each accepting delegate is handed the same (single) tagged
event reference rather than its own copy. -/
theorem c6_flush_aliasing (bp : Option String) (h : JSHeap) (eref : Nat)
    (origin : EventOrigin) (delegates : List String) (wills : String → Bool)
    (ev : EventObj) (csref : Nat) (cs : CallSite)
    (hev : h.events[eref]? = some ev)
    (hcs : ev.callSiteRef = some csref)
    (hcso : h.callSites[csref]? = some cs) :
    (∀ j < h.callSites.length,
      (flushEntryAlloc bp h eref origin delegates wills).1.callSites[j]? =
        h.callSites[j]?) ∧
    ((flushEntryAlloc bp h eref origin delegates wills).1.events[eref]? =
      some { ev with callSiteRef := some h.callSites.length }) ∧
    ((flushEntryAlloc bp h eref origin delegates wills).1.callSites[h.callSites.length]? =
      some { cs with file :=
        (if origin = EventOrigin.Frontend then "Frontend: " else "Backend : ") ++
          shortenPath bp cs.file origin }) ∧
    ((flushEntryAlloc bp h eref origin delegates wills).2 =
      (delegates.filter wills).map (fun name => (name, eref))) := by
  have heref : eref < h.events.length := by
    by_contra hc
    rw [List.getElem?_eq_none (by omega)] at hev
    exact Option.noConfusion hev
  rw [flushEntryAlloc, hev]
  simp only [hcs, hcso]
  refine ⟨?_, ?_, ?_, ?_⟩
  · intro j hj
    exact List.getElem?_append_left hj
  · rw [List.getElem?_set_self heref]
  · rw [List.getElem?_append_right (le_refl _)]
    simp
  · trivial

/-- C6 witness at a concrete one-event heap with two delegates. -/
theorem c6_flush_aliasing_witness :
    ((flushEntryAlloc none ⟨[⟨"original.ts", 1, 1⟩], [⟨3, "t", [], 0, some 0⟩]⟩
        0 EventOrigin.Backend ["CONSOLE", "FILE"] (fun _ => true)).1.callSites[0]? =
      some ⟨"original.ts", 1, 1⟩) ∧
    ((flushEntryAlloc none ⟨[⟨"original.ts", 1, 1⟩], [⟨3, "t", [], 0, some 0⟩]⟩
        0 EventOrigin.Backend ["CONSOLE", "FILE"] (fun _ => true)).2 =
      (["CONSOLE", "FILE"].filter (fun _ => true)).map (fun name => (name, 0))) :=
  ⟨by
    have := (c6_flush_aliasing none ⟨[⟨"original.ts", 1, 1⟩], [⟨3, "t", [], 0, some 0⟩]⟩
      0 EventOrigin.Backend ["CONSOLE", "FILE"] (fun _ => true)
      ⟨3, "t", [], 0, some 0⟩ 0 ⟨"original.ts", 1, 1⟩ rfl rfl rfl).1 0 (by decide)
    simpa using this,
   (c6_flush_aliasing none ⟨[⟨"original.ts", 1, 1⟩], [⟨3, "t", [], 0, some 0⟩]⟩
      0 EventOrigin.Backend ["CONSOLE", "FILE"] (fun _ => true)
      ⟨3, "t", [], 0, some 0⟩ 0 ⟨"original.ts", 1, 1⟩ rfl rfl rfl).2.2.2⟩

/-! ## Rotating file writer (`RotatingFileAppender.ts`)

The machine-local timezone is modelled as UTC: `getFullYear`/`getMonth`/
`getDate`/`getHours`/... are derived from the epoch-millisecond value with
the standard civil-calendar algorithms, and `new Date("YYYY-MM-DDT00:00:00")`
is the inverse (V8 yields an Invalid Date — hence no deletion — for an
out-of-range month or day, mirrored here by returning `none`).  All files
live in the single configured output directory, so file names stand for
full paths. -/

/-- Days since 1970-01-01 of a civil date (Howard Hinnant's algorithm). -/
def daysFromCivil (y : Int) (m d : Nat) : Int :=
  let y2 : Int := if m ≤ 2 then y - 1 else y
  let era : Int := Int.fdiv y2 400
  let yoe : Int := y2 - era * 400
  let mp : Nat := (m + 9) % 12
  let doy : Int := ((153 * mp + 2) / 5 : Nat) + d - 1
  let doe : Int := yoe * 365 + Int.fdiv yoe 4 - Int.fdiv yoe 100 + doy
  era * 146097 + doe - 719468

/-- Civil date (year, month, day) of a days-since-epoch count. -/
def civilFromDays (z0 : Int) : Int × Nat × Nat :=
  let z : Int := z0 + 719468
  let era : Int := Int.fdiv z 146097
  let doe : Nat := (z - era * 146097).toNat
  let yoe : Nat := (doe - doe / 1460 + doe / 36524 - doe / 146096) / 365
  let y : Int := (yoe : Int) + era * 400
  let doy : Nat := doe - (365 * yoe + yoe / 4 - yoe / 100)
  let mp : Nat := (5 * doy + 2) / 153
  let d : Nat := doy - (153 * mp + 2) / 5 + 1
  let m : Nat := if mp < 10 then mp + 3 else mp - 9
  (if m ≤ 2 then y + 1 else y, m, d)

def MILLIS_PER_DAY : Int := 24 * 60 * 60 * 1000

/-- `padStart(2, '0')` of a number below 100. -/
def pad2 (n : Nat) : String :=
  if n < 10 then "0" ++ toString n else toString n

/-- `toDateString`: format an epoch instant as 'YYYY-MM-DD'. -/
def toDateString (ms : Int) : String :=
  let days := Int.fdiv ms MILLIS_PER_DAY
  let c := civilFromDays days
  toString c.1 ++ "-" ++ pad2 c.2.1 ++ "-" ++ pad2 c.2.2

/-- `toTimeString`: format an epoch instant as 'HH-mm-ss'. -/
def toTimeString (ms : Int) : String :=
  let msDay : Nat := (Int.fmod ms MILLIS_PER_DAY).toNat
  pad2 (msDay / 3600000) ++ "-" ++ pad2 (msDay % 3600000 / 60000) ++ "-" ++
    pad2 (msDay % 60000 / 1000)

/-! ### File-system model -/

structure FileMeta where
  content : String
  mtime : Int
  birthtime : Int
  deriving Repr, DecidableEq

/-- The output directory: an association of file names to file states. -/
abbrev FS := List (String × FileMeta)

def lookupF (fs : FS) (name : String) : Option FileMeta :=
  (fs.find? (fun p => p.1 == name)).map Prod.snd

def eraseF (fs : FS) (name : String) : FS :=
  fs.filter (fun p => !(p.1 == name))

def setF (fs : FS) (name : String) (meta : FileMeta) : FS :=
  eraseF fs name ++ [(name, meta)]

/-- `appendFile`: create or extend; `now` models the wall clock stamped
into `mtime` (and `birthtime` on creation). -/
def appendF (fs : FS) (name : String) (line : String) (now : Int) : FS :=
  match lookupF fs name with
  | some m => setF fs name ⟨m.content ++ line, now, m.birthtime⟩
  | none => setF fs name ⟨line, now, now⟩

/-- `rename`: move (overwriting the target); a missing source is the benign
ENOENT no-op that `rotateDateChange`/`rotateSizeLimit` swallow. -/
def renameF (fs : FS) (src dst : String) : FS :=
  match lookupF fs src with
  | some m => setF (eraseF fs src) dst m
  | none => fs

def unlinkF (fs : FS) (name : String) : FS := eraseF fs name

def readdirF (fs : FS) : List String := fs.map Prod.fst

/-! ### Writer configuration, state, and formatting -/

def DEFAULT_MAX_FILE_SIZE : Nat := 5 * 1024 * 1024

def DEFAULT_MAX_AGE_DAYS : Nat := 30

/-- `payload` is a sequence of values or a zero-argument function; the
function case is pushed as a single joined part by `formatLogLine`. -/
inductive WPayload where
  | vals (items : List String)
  | lazyS (f : Unit → String)

structure WEvent where
  level : Nat
  loggerName : String
  payload : WPayload
  ts : Int

/-- Writer configuration; `fmtPrefix`/`fmtAny` stand for the library-
provided `formatPrefix(event, colored)` / `formatAny(item, pretty,
colored)` of `AbstractBaseAppender` (opaque to this repository). -/
structure WCfg where
  baseName : String := "app"
  extension : String := "log"
  maxFileSize : Nat := DEFAULT_MAX_FILE_SIZE
  maxAgeDays : Nat := DEFAULT_MAX_AGE_DAYS
  level : Option Nat := none
  fmtPrefix : WEvent → String
  fmtAny : String → String

structure WState where
  currentDateString : String
  currentFileStartTime : String
  currentFileSize : Nat
  initialized : Bool
  deriving Repr, DecidableEq

/-- The field initializers of the class. -/
def WState.fresh : WState := ⟨"", "", 0, false⟩

def activeName (cfg : WCfg) : String := cfg.baseName ++ "." ++ cfg.extension

def dateArchiveName (cfg : WCfg) (archiveDate : String) : String :=
  cfg.baseName ++ "-" ++ archiveDate ++ "." ++ cfg.extension

def sizeArchiveName (cfg : WCfg) (dateStr timeStr : String) : String :=
  cfg.baseName ++ "-" ++ dateStr ++ "_" ++ timeStr ++ "." ++ cfg.extension

/-- `formatLogLine`: prefix and payload parts joined by single spaces, one
trailing newline. -/
def formatLogLine (cfg : WCfg) (e : WEvent) : String :=
  match e.payload with
  | WPayload.vals items =>
    String.intercalate " " (cfg.fmtPrefix e :: items.map cfg.fmtAny) ++ "\n"
  | WPayload.lazyS f =>
    String.intercalate " " [cfg.fmtPrefix e, f ()] ++ "\n"

def wWillHandle (cfg : WCfg) (e : WEvent) : Bool :=
  match cfg.level with
  | none => true
  | some l => l ≤ e.level

/-! ### Archive pattern and cleanup -/

/-- 'YYYY-MM-DD'. -/
def datePatOK (l : List Char) : Bool :=
  match l with
  | [y1, y2, y3, y4, s1, m1, m2, s2, d1, d2] =>
    y1.isDigit && y2.isDigit && y3.isDigit && y4.isDigit && s1 == '-' &&
    m1.isDigit && m2.isDigit && s2 == '-' && d1.isDigit && d2.isDigit
  | _ => false

/-- 'HH-mm-ss'. -/
def timePatOK (l : List Char) : Bool :=
  match l with
  | [h1, h2, s1, m1, m2, s2, x1, x2] =>
    h1.isDigit && h2.isDigit && s1 == '-' && m1.isDigit && m2.isDigit &&
    s2 == '-' && x1.isDigit && x2.isDigit
  | _ => false

/-- `buildArchivePattern` as a matcher: a name matches
`^base-(\d4-\d2-\d2)(_\d2-\d2-\d2)?\.ext$` and the captured date portion is
returned. -/
def matchArchive (base ext name : String) : Option String :=
  let pre := (base ++ "-").data
  let suf := ("." ++ ext).data
  let nd := name.data
  if pre.isPrefixOf nd && suf.reverse.isPrefixOf nd.reverse &&
      pre.length + suf.length ≤ nd.length then
    let mid := (nd.drop pre.length).take (nd.length - pre.length - suf.length)
    if datePatOK (mid.take 10) then
      if mid.length == 10 then some (String.mk mid)
      else if mid.length == 19 && mid.getD 10 'x' == '_' && timePatOK (mid.drop 11) then
        some (String.mk (mid.take 10))
      else none
    else none
  else none

def digitVal (c : Char) : Nat := c.toNat - 48

def isLeapYear (y : Int) : Bool :=
  (Int.emod y 4 == 0 && Int.emod y 100 != 0) || Int.emod y 400 == 0

def daysInMonth (y : Int) (m : Nat) : Nat :=
  if m == 2 then (if isLeapYear y then 29 else 28)
  else if m == 4 || m == 6 || m == 9 || m == 11 then 30
  else 31

/-- `new Date(dateStr + "T00:00:00").getTime()` for a captured date string;
`none` models V8's Invalid Date (NaN) for out-of-range month or day. -/
def parseArchiveDateMs (s : String) : Option Int :=
  match s.data with
  | [y1, y2, y3, y4, _, m1, m2, _, d1, d2] =>
    let y : Nat := digitVal y1 * 1000 + digitVal y2 * 100 + digitVal y3 * 10 + digitVal y4
    let m : Nat := digitVal m1 * 10 + digitVal m2
    let d : Nat := digitVal d1 * 10 + digitVal d2
    if 1 ≤ m ∧ m ≤ 12 ∧ 1 ≤ d ∧ d ≤ daysInMonth (y : Int) m then
      some (daysFromCivil (y : Int) m d * MILLIS_PER_DAY)
    else none
  | _ => none

/-- Deletion condition of the cleanup loop: the name matches the archive
pattern and its parsed date lies before `now - maxAgeDays` days (an
unparsable date compares as NaN and is never deleted). -/
def shouldDelete (cfg : WCfg) (now : Int) (name : String) : Bool :=
  match matchArchive cfg.baseName cfg.extension name with
  | some dateStr =>
    match parseArchiveDateMs dateStr with
    | some t => decide (t < now - (cfg.maxAgeDays : Int) * MILLIS_PER_DAY)
    | none => false
  | none => false

/-- `cleanupArchives`: iterate the directory listing, unlinking matching
archives older than the retention window. -/
def cleanupArchives (cfg : WCfg) (fs : FS) (now : Int) : FS :=
  (readdirF fs).foldl
    (fun acc entry => if shouldDelete cfg now entry then unlinkF acc entry else acc) fs

/-! ### Initialization and per-event processing -/

/-- `initOnFirstWrite`: stat the active file; absent → fresh start; stale
date → date-rotate it away using its own mtime date (the interim
`currentDateString`/`currentFileStartTime` assignments of the source are
overwritten before the next read, so only the rotation target matters);
same date → resume with its size and birthtime; then clean up archives. -/
def initOnFirstWrite (cfg : WCfg) (s : WState) (fs : FS) (now : Int) : WState × FS :=
  let s1 := { s with initialized := true }
  let p :=
    match lookupF fs (activeName cfg) with
    | some stats =>
      let fileDate := toDateString stats.mtime
      let today := toDateString now
      if fileDate ≠ today then
        ({ s1 with currentDateString := today,
                   currentFileStartTime := toTimeString now,
                   currentFileSize := 0 },
         renameF fs (activeName cfg) (dateArchiveName cfg fileDate))
      else
        ({ s1 with currentDateString := today,
                   currentFileSize := stats.content.utf8ByteSize,
                   currentFileStartTime := toTimeString stats.birthtime },
         fs)
    | none =>
      ({ s1 with currentDateString := toDateString now,
                 currentFileStartTime := toTimeString now,
                 currentFileSize := 0 },
       fs)
  (p.1, cleanupArchives cfg p.2 now)

/-- `processEvent`: lazy init, date-rotation check, format, size-rotation
check, append. -/
def processEvent (cfg : WCfg) (s0 : WState) (fs0 : FS) (e : WEvent) : WState × FS :=
  let p1 := if s0.initialized then (s0, fs0) else initOnFirstWrite cfg s0 fs0 e.ts
  let s1 := p1.1
  let eventDate := toDateString e.ts
  let p2 :=
    if eventDate ≠ s1.currentDateString then
      ({ s1 with currentDateString := eventDate,
                 currentFileStartTime := toTimeString e.ts,
                 currentFileSize := 0 },
       renameF p1.2 (activeName cfg) (dateArchiveName cfg s1.currentDateString))
    else p1
  let s2 := p2.1
  let line := formatLogLine cfg e
  let bytes := line.utf8ByteSize
  let p3 :=
    if 0 < s2.currentFileSize ∧ cfg.maxFileSize < s2.currentFileSize + bytes then
      ({ s2 with currentFileStartTime := toTimeString e.ts, currentFileSize := 0 },
       renameF p2.2 (activeName cfg)
         (sizeArchiveName cfg s2.currentDateString s2.currentFileStartTime))
    else p2
  ({ p3.1 with currentFileSize := p3.1.currentFileSize + bytes },
   appendF p3.2 (activeName cfg) line e.ts)

/-- `handle`: level filter, then the queued (serialized) `processEvent`. -/
def wHandle (cfg : WCfg) (s : WState) (fs : FS) (e : WEvent) : WState × FS :=
  if wWillHandle cfg e then processEvent cfg s fs e else (s, fs)

/-- A writer-only run: a sequence of `handle` calls processed in order
(strict FIFO via the internal promise queue). -/
def wRun (cfg : WCfg) (s : WState) (fs : FS) (events : List WEvent) : WState × FS :=
  events.foldl (fun p e => wHandle cfg p.1 p.2 e) (s, fs)

/-! ### Lookup lemmas for the file-system model -/

theorem lookupF_eraseF_self (fs : FS) (n : String) : lookupF (eraseF fs n) n = none := by
  rw [lookupF, eraseF]
  rw [show ((fs.filter (fun p => !(p.1 == n))).find? (fun p => p.1 == n)) = none from ?_]
  · rfl
  · rw [List.find?_eq_none]
    intro x hx
    have := (List.mem_filter.mp hx).2
    simpa using this

theorem lookupF_eraseF_ne (fs : FS) {k n : String} (h : k ≠ n) :
    lookupF (eraseF fs n) k = lookupF fs k := by
  induction fs with
  | nil => rfl
  | cons p rest ih =>
    rw [eraseF, List.filter_cons]
    by_cases hp : p.1 = n
    · have hpk : (p.1 == k) = false := by simp [hp, Ne.symm h]
      have hcond : (!(p.1 == n)) = false := by simp [hp]
      rw [hcond]
      simp only [Bool.false_eq_true, if_false]
      have hr : lookupF (p :: rest) k = lookupF rest k := by
        rw [lookupF, List.find?_cons_of_neg _ (by simp [hpk])]
        rfl
      rw [hr]
      exact ih
    · have hcond : (!(p.1 == n)) = true := by simp [hp]
      rw [hcond]
      simp only [if_true]
      by_cases hk : p.1 = k
      · rw [lookupF, List.find?_cons_of_pos _ (by simp [hk]), lookupF,
          List.find?_cons_of_pos _ (by simp [hk])]
      · have hl : lookupF (p :: eraseF rest n) k = lookupF (eraseF rest n) k := by
          rw [lookupF, List.find?_cons_of_neg _ (by simp [hk])]
          rfl
        have hr : lookupF (p :: rest) k = lookupF rest k := by
          rw [lookupF, List.find?_cons_of_neg _ (by simp [hk])]
          rfl
        rw [show (List.filter (fun q => !(q.1 == n)) rest) = eraseF rest n from rfl,
          hl, hr]
        exact ih

theorem lookupF_setF_self (fs : FS) (n : String) (m : FileMeta) :
    lookupF (setF fs n m) n = some m := by
  rw [setF, lookupF, List.find?_append]
  rw [show ((eraseF fs n).find? (fun p => p.1 == n)) = none from ?_]
  · simp [List.find?]
  · rw [List.find?_eq_none]
    intro x hx
    have := (List.mem_filter.mp hx).2
    simpa using this

theorem lookupF_setF_ne (fs : FS) {k n : String} (m : FileMeta) (h : k ≠ n) :
    lookupF (setF fs n m) k = lookupF fs k := by
  rw [setF, lookupF, List.find?_append]
  rw [show (([(n, m)] : FS).find? (fun p => p.1 == k)) = none from ?_]
  · rw [Option.or_none]
    exact lookupF_eraseF_ne fs h
  · rw [List.find?_cons_of_neg _ (by simp [Ne.symm h])]
    rfl

/-! ### Archive names never collide with the active name -/

theorem dateArchiveName_ne_activeName (cfg : WCfg) (d : String) :
    dateArchiveName cfg d ≠ activeName cfg := by
  intro h
  have hlen := congrArg String.length h
  simp only [dateArchiveName, activeName, String.length_append,
    show ("-" : String).length = 1 from rfl,
    show ("." : String).length = 1 from rfl] at hlen
  omega

theorem sizeArchiveName_ne_activeName (cfg : WCfg) (d t : String) :
    sizeArchiveName cfg d t ≠ activeName cfg := by
  intro h
  have hlen := congrArg String.length h
  simp only [sizeArchiveName, activeName, String.length_append,
    show ("-" : String).length = 1 from rfl,
    show ("_" : String).length = 1 from rfl,
    show ("." : String).length = 1 from rfl] at hlen
  omega

/-! ## Claim C10 -/

/-- C10: while the running byte counter is zero (fresh start or just after
a rotation) no size rotation happens even for a line longer than
`maxFileSize`: the oversized line is appended whole to the empty active
file, the counter becomes the line's byte length (hence exceeds
`maxFileSize`), and no other file is touched. -/
theorem c10_no_rotation_at_zero (cfg : WCfg) (s : WState) (fs : FS) (e : WEvent)
    (hinit : s.initialized = true) (hzero : s.currentFileSize = 0)
    (hdate : toDateString e.ts = s.currentDateString)
    (habs : lookupF fs (activeName cfg) = none) :
    (processEvent cfg s fs e).1.currentFileSize = (formatLogLine cfg e).utf8ByteSize ∧
    lookupF (processEvent cfg s fs e).2 (activeName cfg) =
      some ⟨formatLogLine cfg e, e.ts, e.ts⟩ ∧
    (∀ n, n ≠ activeName cfg → lookupF (processEvent cfg s fs e).2 n = lookupF fs n) ∧
    (cfg.maxFileSize < (formatLogLine cfg e).utf8ByteSize →
      cfg.maxFileSize < (processEvent cfg s fs e).1.currentFileSize) := by
  have hred : processEvent cfg s fs e =
      ({ s with currentFileSize := s.currentFileSize + (formatLogLine cfg e).utf8ByteSize },
       appendF fs (activeName cfg) (formatLogLine cfg e) e.ts) := by
    rw [processEvent]
    simp [hinit, hdate, hzero]
  rw [hred]
  have happ : appendF fs (activeName cfg) (formatLogLine cfg e) e.ts =
      setF fs (activeName cfg) ⟨formatLogLine cfg e, e.ts, e.ts⟩ := by
    rw [appendF, habs]
  rw [happ]
  refine ⟨by rw [hzero]; simp, ?_, ?_, ?_⟩
  · exact lookupF_setF_self fs (activeName cfg)
      ⟨formatLogLine cfg e, e.ts, e.ts⟩
  · intro n hn
    exact lookupF_setF_ne fs _ hn
  · intro hbig
    rw [hzero]
    simpa using hbig

/-- Concrete writer configuration for witnesses: tiny size limit, trivial
formatting helpers. -/
def wcfgT : WCfg := { maxFileSize := 200, fmtPrefix := fun _ => "P", fmtAny := id }

/-- A concrete timestamp (2026-02-02, 03:33:20 UTC). -/
def tsT : Int := 1770000000000

/-- An event whose formatted line exceeds `wcfgT.maxFileSize` on its own. -/
def wEvBig : WEvent := ⟨3, "t", WPayload.vals [String.mk (List.replicate 250 'x')], tsT⟩

/-- C10 witness: a 253-byte line against a 200-byte limit and a zero
counter is appended whole. -/
theorem c10_no_rotation_at_zero_witness :
    (processEvent wcfgT ⟨toDateString tsT, toTimeString tsT, 0, true⟩ [] wEvBig).1.currentFileSize
      = (formatLogLine wcfgT wEvBig).utf8ByteSize ∧
    lookupF (processEvent wcfgT ⟨toDateString tsT, toTimeString tsT, 0, true⟩ [] wEvBig).2
        (activeName wcfgT) = some ⟨formatLogLine wcfgT wEvBig, tsT, tsT⟩ ∧
    wcfgT.maxFileSize <
      (processEvent wcfgT ⟨toDateString tsT, toTimeString tsT, 0, true⟩ [] wEvBig).1.currentFileSize :=
  ⟨(c10_no_rotation_at_zero wcfgT _ [] wEvBig rfl rfl rfl rfl).1,
   (c10_no_rotation_at_zero wcfgT _ [] wEvBig rfl rfl rfl rfl).2.1,
   (c10_no_rotation_at_zero wcfgT _ [] wEvBig rfl rfl rfl rfl).2.2.2 (by decide)⟩

/-! ## Claim C3 -/

/-- C3: when the byte counter is non-zero and the next line would cross the
size limit (and the event is on the current date), exactly one rotation
happens before the write: the active file's content moves to
`<base>-<date>_<start-time>.<ext>` — named with the recorded content-start
time, not the event's own time — the counter restarts at the new line's
byte length, the crossing line is the entire content of the fresh active
file, a new content-start time is recorded, and no other file changes. -/
theorem c3_size_rotation (cfg : WCfg) (s : WState) (fs : FS) (e : WEvent)
    (meta : FileMeta)
    (hinit : s.initialized = true)
    (hdate : toDateString e.ts = s.currentDateString)
    (hpos : 0 < s.currentFileSize)
    (hover : cfg.maxFileSize < s.currentFileSize + (formatLogLine cfg e).utf8ByteSize)
    (hact : lookupF fs (activeName cfg) = some meta) :
    lookupF (processEvent cfg s fs e).2
        (sizeArchiveName cfg s.currentDateString s.currentFileStartTime) = some meta ∧
    lookupF (processEvent cfg s fs e).2 (activeName cfg) =
      some ⟨formatLogLine cfg e, e.ts, e.ts⟩ ∧
    (processEvent cfg s fs e).1.currentFileSize = (formatLogLine cfg e).utf8ByteSize ∧
    (processEvent cfg s fs e).1.currentFileStartTime = toTimeString e.ts ∧
    (processEvent cfg s fs e).1.currentDateString = s.currentDateString ∧
    (∀ n, n ≠ activeName cfg →
      n ≠ sizeArchiveName cfg s.currentDateString s.currentFileStartTime →
      lookupF (processEvent cfg s fs e).2 n = lookupF fs n) := by
  have hne : sizeArchiveName cfg s.currentDateString s.currentFileStartTime ≠ activeName cfg :=
    sizeArchiveName_ne_activeName cfg _ _
  have hred : processEvent cfg s fs e =
      ({ s with currentFileStartTime := toTimeString e.ts,
                currentFileSize := 0 + (formatLogLine cfg e).utf8ByteSize },
       appendF (renameF fs (activeName cfg)
           (sizeArchiveName cfg s.currentDateString s.currentFileStartTime))
         (activeName cfg) (formatLogLine cfg e) e.ts) := by
    rw [processEvent]
    simp [hinit, hdate, hpos, hover]
  have hren : renameF fs (activeName cfg)
      (sizeArchiveName cfg s.currentDateString s.currentFileStartTime) =
      setF (eraseF fs (activeName cfg))
        (sizeArchiveName cfg s.currentDateString s.currentFileStartTime) meta := by
    rw [renameF, hact]
  have habs2 : lookupF (setF (eraseF fs (activeName cfg))
      (sizeArchiveName cfg s.currentDateString s.currentFileStartTime) meta)
      (activeName cfg) = none := by
    rw [lookupF_setF_ne _ _ (Ne.symm hne)]
    exact lookupF_eraseF_self fs _
  have happ : appendF (setF (eraseF fs (activeName cfg))
      (sizeArchiveName cfg s.currentDateString s.currentFileStartTime) meta)
      (activeName cfg) (formatLogLine cfg e) e.ts =
      setF (setF (eraseF fs (activeName cfg))
        (sizeArchiveName cfg s.currentDateString s.currentFileStartTime) meta)
        (activeName cfg) ⟨formatLogLine cfg e, e.ts, e.ts⟩ := by
    rw [appendF, habs2]
  rw [hred, hren, happ]
  refine ⟨?_, ?_, by simp, rfl, rfl, ?_⟩
  · rw [lookupF_setF_ne _ _ hne, lookupF_setF_self]
  · rw [lookupF_setF_self]
  · intro n hna hnar
    rw [lookupF_setF_ne _ _ hna, lookupF_setF_ne _ _ hnar, lookupF_eraseF_ne _ hna]

/-- C3 witness: a 150-byte file plus a 153-byte line against a 200-byte
limit; the archive takes the recorded start time 04-00-00, not the
event's own time. -/
theorem c3_size_rotation_witness :
    lookupF (processEvent wcfgT
        ⟨toDateString tsT, "04-00-00", 150, true⟩
        [(activeName wcfgT, ⟨"old", tsT, tsT⟩)] wEvBig).2
      (sizeArchiveName wcfgT (toDateString tsT) "04-00-00") = some ⟨"old", tsT, tsT⟩ ∧
    lookupF (processEvent wcfgT
        ⟨toDateString tsT, "04-00-00", 150, true⟩
        [(activeName wcfgT, ⟨"old", tsT, tsT⟩)] wEvBig).2 (activeName wcfgT) =
      some ⟨formatLogLine wcfgT wEvBig, tsT, tsT⟩ ∧
    (processEvent wcfgT ⟨toDateString tsT, "04-00-00", 150, true⟩
        [(activeName wcfgT, ⟨"old", tsT, tsT⟩)] wEvBig).1.currentFileStartTime =
      toTimeString tsT :=
  ⟨(c3_size_rotation wcfgT _ _ wEvBig ⟨"old", tsT, tsT⟩ rfl rfl (by decide) (by decide)
      (by decide)).1,
   (c3_size_rotation wcfgT _ _ wEvBig ⟨"old", tsT, tsT⟩ rfl rfl (by decide) (by decide)
      (by decide)).2.1,
   (c3_size_rotation wcfgT _ _ wEvBig ⟨"old", tsT, tsT⟩ rfl rfl (by decide) (by decide)
      (by decide)).2.2.2.1⟩

/-! ### Cleanup characterisation -/

theorem cleanup_fold (cfg : WCfg) (now : Int) : ∀ (ns : List String) (acc : FS),
    ns.foldl (fun a entry => if shouldDelete cfg now entry then unlinkF a entry else a) acc =
      acc.filter (fun p => !(ns.contains p.1 && shouldDelete cfg now p.1)) := by
  intro ns
  induction ns with
  | nil =>
    intro acc
    simp [List.filter_eq_self]
  | cons n ns ih =>
    intro acc
    rw [List.foldl_cons, ih]
    by_cases hsd : shouldDelete cfg now n = true
    · rw [if_pos hsd, unlinkF, eraseF, List.filter_filter]
      apply List.filter_congr
      intro x _
      by_cases hxn : x.1 = n
      · simp [hxn, hsd]
      · simp [hxn, show (x.1 == n) = false from by simp [hxn]]
    · rw [if_neg (by simpa using hsd)]
      apply List.filter_congr
      intro x _
      by_cases hxn : x.1 = n
      · rw [hxn]
        simp [show shouldDelete cfg now n = false from by simpa using hsd]
      · simp [hxn]

theorem cleanupArchives_eq_filter (cfg : WCfg) (fs : FS) (now : Int) :
    cleanupArchives cfg fs now = fs.filter (fun p => !shouldDelete cfg now p.1) := by
  rw [cleanupArchives, cleanup_fold]
  apply List.filter_congr
  intro x hx
  have hmem : x.1 ∈ readdirF fs := List.mem_map_of_mem Prod.fst hx
  have hcont : (readdirF fs).contains x.1 = true := by simpa using hmem
  rw [hcont, Bool.true_and]

theorem lookupF_cleanup_keep {cfg : WCfg} {now : Int} {name : String} (fs : FS)
    (h : shouldDelete cfg now name = false) :
    lookupF (cleanupArchives cfg fs now) name = lookupF fs name := by
  rw [cleanupArchives_eq_filter]
  induction fs with
  | nil => rfl
  | cons p rest ih =>
    rw [List.filter_cons]
    by_cases hp : p.1 = name
    · rw [if_pos (by rw [hp, h]; rfl)]
      rw [lookupF, List.find?_cons_of_pos _ (by simp [hp]), lookupF,
        List.find?_cons_of_pos _ (by simp [hp])]
    · by_cases hq : shouldDelete cfg now p.1 = true
      · rw [if_neg (by simp [hq])]
        have hr : lookupF (p :: rest) name = lookupF rest name := by
          rw [lookupF, List.find?_cons_of_neg _ (by simp [hp])]
          rfl
        rw [hr]
        exact ih
      · rw [if_pos (by simp [hq] : (!shouldDelete cfg now p.1) = true)]
        have hl : ∀ l : FS, lookupF (p :: l) name = lookupF l name := by
          intro l
          rw [lookupF, List.find?_cons_of_neg _ (by simp [hp])]
          rfl
        rw [hl, hl]
        exact ih

theorem lookupF_cleanup_delete {cfg : WCfg} {now : Int} {name : String} (fs : FS)
    (h : shouldDelete cfg now name = true) :
    lookupF (cleanupArchives cfg fs now) name = none := by
  rw [cleanupArchives_eq_filter, lookupF]
  rw [show ((fs.filter (fun p => !shouldDelete cfg now p.1)).find?
      (fun p => p.1 == name)) = none from ?_]
  · rfl
  · rw [List.find?_eq_none]
    intro x hx
    obtain ⟨-, hkeep⟩ := List.mem_filter.mp hx
    intro hbeq
    have hxn : x.1 = name := by simpa using hbeq
    rw [hxn, h] at hkeep
    simp at hkeep

/-- The active file name never matches the archive pattern. -/
theorem matchArchive_activeName (cfg : WCfg) :
    matchArchive cfg.baseName cfg.extension (activeName cfg) = none := by
  have hfalse : ((cfg.baseName ++ "-").data.isPrefixOf (activeName cfg).data) = false := by
    rw [Bool.eq_false_iff]
    intro hpre
    rw [List.isPrefixOf_iff_prefix] at hpre
    have hpre2 : cfg.baseName.data ++ ['-'] <+:
        cfg.baseName.data ++ ('.' :: cfg.extension.data) := by
      simpa [activeName] using hpre
    have h3 : (['-'] : List Char) <+: ('.' :: cfg.extension.data) :=
      (List.prefix_append_right_inj cfg.baseName.data).mp hpre2
    rcases h3 with ⟨t, ht⟩
    have hcontra : '-' = '.' := by
      have hh := congrArg List.head? ht
      simpa using hh
    exact absurd hcontra (by decide)
  simp only [matchArchive, hfalse, Bool.false_and, Bool.false_eq_true, if_false]

theorem shouldDelete_activeName (cfg : WCfg) (now : Int) :
    shouldDelete cfg now (activeName cfg) = false := by
  rw [shouldDelete, matchArchive_activeName]

/-! ## Claim C4 -/

/-- C4: on the first accepted event, a leftover active file whose
last-modified date differs from the event's date is renamed to
`<base>-<fileDate>.<ext>` using the file's own mtime date before the first
new write lands in a fresh active file (byte counter zero before the
write, so afterwards exactly the new line's length); a leftover file of
the same date makes initialization resume with the byte counter read from
the file's size and the content-start time from its birthtime. -/
theorem c4_startup_recovery (cfg : WCfg) (s : WState) (fs : FS) (e : WEvent)
    (meta : FileMeta)
    (hinit : s.initialized = false)
    (hact : lookupF fs (activeName cfg) = some meta) :
    (toDateString meta.mtime ≠ toDateString e.ts →
      shouldDelete cfg e.ts (dateArchiveName cfg (toDateString meta.mtime)) = false →
      lookupF (processEvent cfg s fs e).2 (dateArchiveName cfg (toDateString meta.mtime))
          = some meta ∧
      lookupF (processEvent cfg s fs e).2 (activeName cfg) =
        some ⟨formatLogLine cfg e, e.ts, e.ts⟩ ∧
      (processEvent cfg s fs e).1.currentFileSize = (formatLogLine cfg e).utf8ByteSize) ∧
    (toDateString meta.mtime = toDateString e.ts →
      (initOnFirstWrite cfg s fs e.ts).1.currentFileSize = meta.content.utf8ByteSize ∧
      (initOnFirstWrite cfg s fs e.ts).1.currentFileStartTime = toTimeString meta.birthtime ∧
      (initOnFirstWrite cfg s fs e.ts).1.currentDateString = toDateString e.ts) := by
  constructor
  · intro hdiff hkeep
    have hne : dateArchiveName cfg (toDateString meta.mtime) ≠ activeName cfg :=
      dateArchiveName_ne_activeName cfg _
    have hredA : processEvent cfg s fs e =
        ({ s with initialized := true, currentDateString := toDateString e.ts,
                  currentFileStartTime := toTimeString e.ts,
                  currentFileSize := 0 + (formatLogLine cfg e).utf8ByteSize },
         appendF (cleanupArchives cfg
             (renameF fs (activeName cfg) (dateArchiveName cfg (toDateString meta.mtime)))
             e.ts)
           (activeName cfg) (formatLogLine cfg e) e.ts) := by
      rw [processEvent, initOnFirstWrite]
      simp [hinit, hact, hdiff]
    have hren : renameF fs (activeName cfg) (dateArchiveName cfg (toDateString meta.mtime)) =
        setF (eraseF fs (activeName cfg)) (dateArchiveName cfg (toDateString meta.mtime))
          meta := by
      rw [renameF, hact]
    have hcleanA : lookupF (cleanupArchives cfg
        (renameF fs (activeName cfg) (dateArchiveName cfg (toDateString meta.mtime))) e.ts)
        (activeName cfg) = none := by
      rw [lookupF_cleanup_keep _ (shouldDelete_activeName cfg e.ts), hren,
        lookupF_setF_ne _ _ (Ne.symm hne)]
      exact lookupF_eraseF_self fs _
    have happ : appendF (cleanupArchives cfg
        (renameF fs (activeName cfg) (dateArchiveName cfg (toDateString meta.mtime))) e.ts)
        (activeName cfg) (formatLogLine cfg e) e.ts =
        setF (cleanupArchives cfg
          (renameF fs (activeName cfg) (dateArchiveName cfg (toDateString meta.mtime))) e.ts)
          (activeName cfg) ⟨formatLogLine cfg e, e.ts, e.ts⟩ := by
      rw [appendF, hcleanA]
    rw [hredA, happ]
    refine ⟨?_, lookupF_setF_self _ _ _, by simp⟩
    rw [lookupF_setF_ne _ _ hne, lookupF_cleanup_keep _ hkeep, hren, lookupF_setF_self]
  · intro heq
    have hredB : initOnFirstWrite cfg s fs e.ts =
        ({ s with initialized := true, currentDateString := toDateString e.ts,
                  currentFileSize := meta.content.utf8ByteSize,
                  currentFileStartTime := toTimeString meta.birthtime },
         cleanupArchives cfg fs e.ts) := by
      rw [initOnFirstWrite]
      simp [hact, heq]
    rw [hredB]
    exact ⟨rfl, rfl, rfl⟩

/-- C4 witness: a leftover file from the previous day is date-rotated with
its own date; a leftover file from the same day resumes the byte count. -/
theorem c4_startup_recovery_witness :
    (lookupF (processEvent wcfgT WState.fresh
        [(activeName wcfgT, ⟨"old\n", tsT - MILLIS_PER_DAY, tsT - MILLIS_PER_DAY⟩)]
        wEvBig).2
      (dateArchiveName wcfgT (toDateString (tsT - MILLIS_PER_DAY))) =
        some ⟨"old\n", tsT - MILLIS_PER_DAY, tsT - MILLIS_PER_DAY⟩ ∧
      lookupF (processEvent wcfgT WState.fresh
        [(activeName wcfgT, ⟨"old\n", tsT - MILLIS_PER_DAY, tsT - MILLIS_PER_DAY⟩)]
        wEvBig).2 (activeName wcfgT) =
        some ⟨formatLogLine wcfgT wEvBig, tsT, tsT⟩ ∧
      (processEvent wcfgT WState.fresh
        [(activeName wcfgT, ⟨"old\n", tsT - MILLIS_PER_DAY, tsT - MILLIS_PER_DAY⟩)]
        wEvBig).1.currentFileSize = (formatLogLine wcfgT wEvBig).utf8ByteSize) ∧
    ((initOnFirstWrite wcfgT WState.fresh
        [(activeName wcfgT, ⟨"0123456789", tsT - 1000, tsT - 2000⟩)] tsT).1.currentFileSize =
      ("0123456789" : String).utf8ByteSize ∧
     (initOnFirstWrite wcfgT WState.fresh
        [(activeName wcfgT, ⟨"0123456789", tsT - 1000, tsT - 2000⟩)] tsT).1.currentFileStartTime =
      toTimeString (tsT - 2000)) :=
  ⟨(c4_startup_recovery wcfgT WState.fresh _ wEvBig
      ⟨"old\n", tsT - MILLIS_PER_DAY, tsT - MILLIS_PER_DAY⟩ rfl (by decide)).1
      (by decide) (by decide),
   ⟨((c4_startup_recovery wcfgT WState.fresh _
        { level := 3, loggerName := "t", payload := WPayload.vals [], ts := tsT }
        ⟨"0123456789", tsT - 1000, tsT - 2000⟩ rfl (by decide)).2 (by decide)).1,
    ((c4_startup_recovery wcfgT WState.fresh _
        { level := 3, loggerName := "t", payload := WPayload.vals [], ts := tsT }
        ⟨"0123456789", tsT - 1000, tsT - 2000⟩ rfl (by decide)).2 (by decide)).2.1⟩⟩

/-! ## Claim C7 -/

/-- C7: archive cleanup (run once during initialization) deletes exactly
the files whose names match `<base>-YYYY-MM-DD.<ext>` or
`<base>-YYYY-MM-DD_HH-mm-ss.<ext>` with a parseable date older than
`maxAgeDays` (default 30) before the initializing event's timestamp;
every other file — non-matching or within the retention window — is left
untouched, and a fresh initialization applies exactly this cleanup. -/
theorem c7_cleanup_exact (cfg : WCfg) (fs : FS) (now : Int) :
    cleanupArchives cfg fs now = fs.filter (fun p => !shouldDelete cfg now p.1) ∧
    (∀ name, shouldDelete cfg now name = true →
      lookupF (cleanupArchives cfg fs now) name = none) ∧
    (∀ name, shouldDelete cfg now name = false →
      lookupF (cleanupArchives cfg fs now) name = lookupF fs name) ∧
    (∀ name, matchArchive cfg.baseName cfg.extension name = none →
      shouldDelete cfg now name = false) ∧
    (∀ s : WState, lookupF fs (activeName cfg) = none →
      (initOnFirstWrite cfg s fs now).2 = cleanupArchives cfg fs now) ∧
    DEFAULT_MAX_AGE_DAYS = 30 :=
  ⟨cleanupArchives_eq_filter cfg fs now,
   fun _ h => lookupF_cleanup_delete fs h,
   fun _ h => lookupF_cleanup_keep fs h,
   fun _ h => by rw [shouldDelete, h],
   fun s h => by rw [initOnFirstWrite, h],
   rfl⟩

/-- Concrete directory for the cleanup witness. -/
def fsW : FS :=
  [("app-2026-01-01.log", ⟨"a", 0, 0⟩), ("app-2026-02-01.log", ⟨"b", 0, 0⟩),
   ("app-2026-01-01_14-30-00.log", ⟨"c", 0, 0⟩), ("other.txt", ⟨"d", 0, 0⟩)]

/-- C7 witness: a 32-day-old date archive and an old size archive are
deleted; a one-day-old archive and the non-matching file survive. -/
theorem c7_cleanup_exact_witness :
    cleanupArchives wcfgT fsW tsT = fsW.filter (fun p => !shouldDelete wcfgT tsT p.1) ∧
    lookupF (cleanupArchives wcfgT fsW tsT) "app-2026-01-01.log" = none ∧
    lookupF (cleanupArchives wcfgT fsW tsT) "app-2026-01-01_14-30-00.log" = none ∧
    lookupF (cleanupArchives wcfgT fsW tsT) "app-2026-02-01.log" =
      lookupF fsW "app-2026-02-01.log" ∧
    lookupF (cleanupArchives wcfgT fsW tsT) "other.txt" = lookupF fsW "other.txt" :=
  ⟨(c7_cleanup_exact wcfgT fsW tsT).1,
   (c7_cleanup_exact wcfgT fsW tsT).2.1 "app-2026-01-01.log" (by decide),
   (c7_cleanup_exact wcfgT fsW tsT).2.1 "app-2026-01-01_14-30-00.log" (by decide),
   (c7_cleanup_exact wcfgT fsW tsT).2.2.1 "app-2026-02-01.log" (by decide),
   (c7_cleanup_exact wcfgT fsW tsT).2.2.1 "other.txt"
     ((c7_cleanup_exact wcfgT fsW tsT).2.2.2.1 "other.txt" (by decide))⟩

/-! ## Claim C8: backend-only runs without rotation -/

theorem utf8_go_append : ∀ (a b : List Char),
    String.utf8ByteSize.go (a ++ b) = String.utf8ByteSize.go a + String.utf8ByteSize.go b := by
  intro a b
  induction a with
  | nil => simp [String.utf8ByteSize.go]
  | cons c a ih =>
    rw [List.cons_append, String.utf8ByteSize.go, String.utf8ByteSize.go, ih]
    omega

theorem utf8ByteSize_append (a b : String) :
    (a ++ b).utf8ByteSize = a.utf8ByteSize + b.utf8ByteSize := by
  cases a with
  | mk da =>
    cases b with
    | mk db => exact utf8_go_append da db

theorem join_foldl (l : List String) : ∀ init : String,
    l.foldl (fun r s => r ++ s) init = init ++ String.join l := by
  induction l with
  | nil => intro init; simp [String.join]
  | cons x xs ih =>
    intro init
    rw [List.foldl_cons, ih]
    rw [show String.join (x :: xs) = x ++ String.join xs from ?_]
    · rw [String.append_assoc]
    · rw [String.join, List.foldl_cons, ih]
      simp

theorem join_cons (s : String) (l : List String) :
    String.join (s :: l) = s ++ String.join l := by
  rw [String.join, List.foldl_cons, join_foldl]
  simp

theorem lookupF_single (a : String) (m : FileMeta) : lookupF [(a, m)] a = some m := by
  rw [lookupF, List.find?_cons_of_pos _ (by simp)]
  rfl

theorem eraseF_single (a : String) (m : FileMeta) : eraseF [(a, m)] a = [] := by
  rw [eraseF, List.filter_cons]
  simp

/-- One accepted, non-rotating step from a steady single-file state. -/
theorem c8_step (cfg : WCfg) (content : String) (mt bt : Int) (e : WEvent) (s : WState)
    (hinit : s.initialized = true)
    (hcds : s.currentDateString = toDateString e.ts)
    (hsize : s.currentFileSize = content.utf8ByteSize)
    (hmax : content.utf8ByteSize + (formatLogLine cfg e).utf8ByteSize ≤ cfg.maxFileSize) :
    processEvent cfg s [(activeName cfg, ⟨content, mt, bt⟩)] e =
      ({ s with currentFileSize := s.currentFileSize + (formatLogLine cfg e).utf8ByteSize },
       [(activeName cfg, ⟨content ++ formatLogLine cfg e, e.ts, bt⟩)]) := by
  have hnosz : ¬ (0 < s.currentFileSize ∧
      cfg.maxFileSize < s.currentFileSize + (formatLogLine cfg e).utf8ByteSize) := by
    rw [hsize]
    intro hc
    omega
  have happ : appendF [(activeName cfg, ⟨content, mt, bt⟩)] (activeName cfg)
      (formatLogLine cfg e) e.ts =
      [(activeName cfg, ⟨content ++ formatLogLine cfg e, e.ts, bt⟩)] := by
    rw [appendF, lookupF_single]
    show setF [(activeName cfg, ⟨content, mt, bt⟩)] (activeName cfg)
      ⟨content ++ formatLogLine cfg e, e.ts, bt⟩ = _
    rw [setF, eraseF_single]
    rfl
  have hred : processEvent cfg s [(activeName cfg, ⟨content, mt, bt⟩)] e =
      ({ s with currentFileSize := s.currentFileSize + (formatLogLine cfg e).utf8ByteSize },
       appendF [(activeName cfg, ⟨content, mt, bt⟩)] (activeName cfg)
         (formatLogLine cfg e) e.ts) := by
    rw [processEvent]
    simp [hinit, hcds, hnosz]
  rw [hred, happ]

/-- Folding accepted, non-rotating events over a steady single-file state
appends the formatted lines in submission order. -/
theorem c8_run (cfg : WCfg) : ∀ (events : List WEvent) (s : WState) (content : String)
    (mt bt : Int),
    s.initialized = true →
    s.currentFileSize = content.utf8ByteSize →
    (∀ ev ∈ events, toDateString ev.ts = s.currentDateString) →
    content.utf8ByteSize + ((events.filter (wWillHandle cfg)).map
        (fun ev => (formatLogLine cfg ev).utf8ByteSize)).sum ≤ cfg.maxFileSize →
    ∃ mt2 : Int,
      wRun cfg s [(activeName cfg, ⟨content, mt, bt⟩)] events =
        ({ s with currentFileSize :=
            (content ++ String.join ((events.filter (wWillHandle cfg)).map
              (formatLogLine cfg))).utf8ByteSize },
         [(activeName cfg,
           ⟨content ++ String.join ((events.filter (wWillHandle cfg)).map (formatLogLine cfg)),
            mt2, bt⟩)]) := by
  intro events
  induction events with
  | nil =>
    intro s content mt bt hinit hsize hdates hbudget
    refine ⟨mt, ?_⟩
    have h1 : String.join ((List.filter (wWillHandle cfg) []).map (formatLogLine cfg)) = "" := rfl
    rw [wRun, List.foldl_nil, h1, String.append_empty, ← hsize]
  | cons e rest ih =>
    intro s content mt bt hinit hsize hdates hbudget
    by_cases hw : wWillHandle cfg e = true
    · have hfilter : (e :: rest).filter (wWillHandle cfg) = e :: rest.filter (wWillHandle cfg) :=
        List.filter_cons_of_pos hw
      rw [hfilter] at hbudget ⊢
      simp only [List.map_cons, List.sum_cons] at hbudget
      have hmax1 : content.utf8ByteSize + (formatLogLine cfg e).utf8ByteSize ≤
          cfg.maxFileSize := by
        have : 0 ≤ ((rest.filter (wWillHandle cfg)).map
            (fun ev => (formatLogLine cfg ev).utf8ByteSize)).sum := Nat.zero_le _
        omega
      have hstep := c8_step cfg content mt bt e s hinit
        ((hdates e (List.mem_cons_self e rest))).symm hsize hmax1
      rw [wRun, List.foldl_cons]
      rw [show wHandle cfg s [(activeName cfg, ⟨content, mt, bt⟩)] e =
          processEvent cfg s [(activeName cfg, ⟨content, mt, bt⟩)] e from by
        rw [wHandle, if_pos hw]]
      rw [hstep]
      have hsz2 : ({ s with currentFileSize :=
          s.currentFileSize + (formatLogLine cfg e).utf8ByteSize } : WState).currentFileSize =
          (content ++ formatLogLine cfg e).utf8ByteSize := by
        rw [utf8ByteSize_append, hsize]
      have hdates2 : ∀ ev ∈ rest, toDateString ev.ts =
          ({ s with currentFileSize :=
            s.currentFileSize + (formatLogLine cfg e).utf8ByteSize } : WState).currentDateString :=
        fun ev hev => hdates ev (List.mem_cons_of_mem e hev)
      have hbudget2 : (content ++ formatLogLine cfg e).utf8ByteSize +
          ((rest.filter (wWillHandle cfg)).map
            (fun ev => (formatLogLine cfg ev).utf8ByteSize)).sum ≤ cfg.maxFileSize := by
        rw [utf8ByteSize_append]
        omega
      obtain ⟨mt2, hrun⟩ := ih ({ s with currentFileSize :=
          s.currentFileSize + (formatLogLine cfg e).utf8ByteSize })
        (content ++ formatLogLine cfg e) e.ts bt hinit hsz2 hdates2 hbudget2
      refine ⟨mt2, ?_⟩
      rw [List.map_cons, join_cons, ← String.append_assoc]
      exact hrun
    · have hfilter : (e :: rest).filter (wWillHandle cfg) = rest.filter (wWillHandle cfg) :=
        List.filter_cons_of_neg (by simpa using hw)
      rw [hfilter] at hbudget ⊢
      rw [wRun, List.foldl_cons]
      rw [show wHandle cfg s [(activeName cfg, ⟨content, mt, bt⟩)] e =
          (s, [(activeName cfg, ⟨content, mt, bt⟩)]) from by
        rw [wHandle, if_neg (by simpa using hw)]]
      exact ih s content mt bt hinit hsize
        (fun ev hev => hdates ev (List.mem_cons_of_mem e hev)) hbudget

theorem wRun_cons (cfg : WCfg) (s : WState) (fs : FS) (e : WEvent) (rest : List WEvent) :
    wRun cfg s fs (e :: rest) =
      wRun cfg (wHandle cfg s fs e).1 (wHandle cfg s fs e).2 rest := rfl

/-- The first accepted event against a fresh writer and an empty directory
initializes and writes the single formatted line. -/
theorem c8_first (cfg : WCfg) (e : WEvent) (hw : wWillHandle cfg e = true) :
    wHandle cfg WState.fresh [] e =
      ({ currentDateString := toDateString e.ts,
         currentFileStartTime := toTimeString e.ts,
         currentFileSize := 0 + (formatLogLine cfg e).utf8ByteSize,
         initialized := true },
       [(activeName cfg, ⟨formatLogLine cfg e, e.ts, e.ts⟩)]) := by
  have hlook : lookupF [] (activeName cfg) = none := rfl
  have hclean : cleanupArchives cfg [] e.ts = [] := rfl
  rw [wHandle, if_pos hw, processEvent, initOnFirstWrite]
  simp [hlook, hclean, WState.fresh]
  rfl

/-- Content of the active file after a backend-only run without rotation. -/
theorem c8_content (cfg : WCfg) (D : String) : ∀ (events : List WEvent),
    (∀ ev ∈ events, toDateString ev.ts = D) →
    ((events.filter (wWillHandle cfg)).map
      (fun ev => (formatLogLine cfg ev).utf8ByteSize)).sum ≤ cfg.maxFileSize →
    (lookupF (wRun cfg WState.fresh [] events).2 (activeName cfg)).map FileMeta.content =
      (match events.filter (wWillHandle cfg) with
       | [] => none
       | accepted => some (String.join (accepted.map (formatLogLine cfg)))) := by
  intro events
  induction events with
  | nil => intro _ _; rfl
  | cons e rest ih =>
    intro hD hbudget
    by_cases hw : wWillHandle cfg e = true
    · have hfilter : (e :: rest).filter (wWillHandle cfg) = e :: rest.filter (wWillHandle cfg) :=
        List.filter_cons_of_pos hw
      rw [hfilter] at hbudget ⊢
      simp only [List.map_cons, List.sum_cons] at hbudget
      obtain ⟨mt2, hrun⟩ := c8_run cfg rest
        ({ currentDateString := toDateString e.ts,
           currentFileStartTime := toTimeString e.ts,
           currentFileSize := 0 + (formatLogLine cfg e).utf8ByteSize,
           initialized := true })
        (formatLogLine cfg e) e.ts e.ts rfl (by simp)
        (fun ev hev => by
          rw [hD ev (List.mem_cons_of_mem e hev)]
          exact (hD e (List.mem_cons_self e rest)).symm)
        (by omega)
      rw [wRun_cons, c8_first cfg e hw, hrun, lookupF_single]
      simp [join_cons]
    · have hfilter : (e :: rest).filter (wWillHandle cfg) = rest.filter (wWillHandle cfg) :=
        List.filter_cons_of_neg (by simpa using hw)
      rw [hfilter] at hbudget ⊢
      rw [wRun_cons]
      rw [show wHandle cfg WState.fresh [] e = (WState.fresh, []) from by
        rw [wHandle, if_neg (by simpa using hw)]]
      exact ih (fun ev hev => hD ev (List.mem_cons_of_mem e hev)) hbudget

theorem intercalate_go (s : String) : ∀ (l : List String) (acc : String),
    String.intercalate.go acc s l = acc ++ String.join (l.map (fun a => s ++ a)) := by
  intro l
  induction l with
  | nil => intro acc; simp [String.intercalate.go, String.join]
  | cons a as ih =>
    intro acc
    rw [String.intercalate.go, ih, List.map_cons, join_cons]
    simp [String.append_assoc]

theorem intercalate_cons (s a : String) (l : List String) :
    String.intercalate s (a :: l) = a ++ String.join (l.map (fun b => s ++ b)) := by
  rw [String.intercalate, intercalate_go]

/-- C8 counterexample: two 153-byte lines against a 200-byte limit; after
the size rotation the active file no longer holds one line per accepted
event. -/
theorem c8_counterexample :
    ¬ ((lookupF (wRun wcfgT WState.fresh []
          [⟨3, "t", WPayload.vals [String.mk (List.replicate 150 'x')], tsT⟩,
           ⟨3, "t", WPayload.vals [String.mk (List.replicate 150 'x')], tsT + 300000⟩]).2
        (activeName wcfgT)).map FileMeta.content =
      some (String.join ([(⟨3, "t", WPayload.vals [String.mk (List.replicate 150 'x')], tsT⟩ : WEvent),
          ⟨3, "t", WPayload.vals [String.mk (List.replicate 150 'x')], tsT + 300000⟩].map
        (formatLogLine wcfgT)))) := by
  decide

/-- C8 (amended): for backend-only submissions on one calendar date whose
accepted formatted lines fit within `maxFileSize` (so no rotation moves
lines to an archive), the active file holds exactly the accepted events'
lines, concatenated in submission order; every line is the formatted
prefix, a space, the space-joined formatted payload values, and one
trailing newline. -/
theorem c8_backend_only_stream (cfg : WCfg) (events : List WEvent) (D : String)
    (hD : ∀ ev ∈ events, toDateString ev.ts = D)
    (hsum : ((events.filter (wWillHandle cfg)).map
      (fun ev => (formatLogLine cfg ev).utf8ByteSize)).sum ≤ cfg.maxFileSize) :
    ((lookupF (wRun cfg WState.fresh [] events).2 (activeName cfg)).map FileMeta.content =
      (match events.filter (wWillHandle cfg) with
       | [] => none
       | accepted => some (String.join (accepted.map (formatLogLine cfg))))) ∧
    (∀ (ev : WEvent) (items : List String), ev.payload = WPayload.vals items → items ≠ [] →
      formatLogLine cfg ev =
        cfg.fmtPrefix ev ++ " " ++ String.intercalate " " (items.map cfg.fmtAny) ++ "\n") ∧
    (∀ ev : WEvent, ∃ core : String, formatLogLine cfg ev = core ++ "\n") := by
  refine ⟨c8_content cfg D events hD hsum, ?_, ?_⟩
  · intro ev items hpe hne
    cases items with
    | nil => exact absurd rfl hne
    | cons i is =>
      rw [formatLogLine, hpe]
      simp only [List.map_cons]
      rw [intercalate_cons, intercalate_cons, List.map_cons, join_cons]
      simp [String.append_assoc]
  · intro ev
    cases hpe : ev.payload with
    | vals items =>
      exact ⟨String.intercalate " " (cfg.fmtPrefix ev :: items.map cfg.fmtAny),
        by rw [formatLogLine, hpe]⟩
    | lazyS f =>
      exact ⟨String.intercalate " " [cfg.fmtPrefix ev, f ()],
        by rw [formatLogLine, hpe]⟩

/-- C8 witness: two small events on one day produce exactly their two
lines, in order. -/
theorem c8_backend_only_stream_witness :
    ((lookupF (wRun wcfgT WState.fresh []
        [⟨3, "t", WPayload.vals ["alpha"], tsT⟩, ⟨3, "t", WPayload.vals ["beta"], tsT + 1000⟩]).2
      (activeName wcfgT)).map FileMeta.content =
      (match [(⟨3, "t", WPayload.vals ["alpha"], tsT⟩ : WEvent),
              ⟨3, "t", WPayload.vals ["beta"], tsT + 1000⟩].filter (wWillHandle wcfgT) with
       | [] => none
       | accepted => some (String.join (accepted.map (formatLogLine wcfgT))))) ∧
    formatLogLine wcfgT ⟨3, "t", WPayload.vals ["alpha"], tsT⟩ =
      wcfgT.fmtPrefix ⟨3, "t", WPayload.vals ["alpha"], tsT⟩ ++ " " ++
        String.intercalate " " (["alpha"].map wcfgT.fmtAny) ++ "\n" ∧
    (∃ core : String, formatLogLine wcfgT ⟨3, "t", WPayload.vals ["alpha"], tsT⟩ = core ++ "\n") :=
  ⟨(c8_backend_only_stream wcfgT _ (toDateString tsT)
      (by
        intro ev hev
        simp only [List.mem_cons, List.not_mem_nil, or_false] at hev
        rcases hev with rfl | rfl <;> decide)
      (by decide)).1,
   (c8_backend_only_stream wcfgT [] (toDateString tsT) (by intro ev hev; cases hev)
      (by decide)).2.1 ⟨3, "t", WPayload.vals ["alpha"], tsT⟩ ["alpha"] rfl (by decide),
   (c8_backend_only_stream wcfgT [] (toDateString tsT) (by intro ev hev; cases hev)
      (by decide)).2.2 ⟨3, "t", WPayload.vals ["alpha"], tsT⟩⟩

/-! ## Claim C5: error propagation at the public entry points

The fallible effects are made explicit: a delegate's `handle` may reject;
`stat` may fail with a non-ENOENT error (which `initOnFirstWrite`
rethrows); `appendFile` may reject (the source does not wrap the append —
or the rethrown stat error — in a try/catch, so `processEvent`'s promise
rejects, and `handle` returns that un-caught `pending` promise while only
the internal `logQueue` attaches a `.catch` that logs).  `rename` and
cleanup failures are caught and logged inside the source, so they stay
infallible here. -/

structure DelegateE where
  name : String
  willHandle : PEvent → Bool
  handle : PEvent → Except String Unit

/-- Error-aware `flushEntry` body: each delegate call is individually
caught (`.catch(err => console.error(...))`); returns the console error
lines. -/
def flushEntryE (bp : Option String) (delegates : List DelegateE)
    (entry : BufferedEvent) : List String :=
  delegates.foldl (fun log d =>
    if d.willHandle (tagEvent bp entry) then
      match d.handle (tagEvent bp entry) with
      | Except.ok _ => log
      | Except.error _ =>
        log ++ ["Error in PipelineAppender delegate " ++ d.name]
    else log) []

/-- Error-aware `handle` of the pipeline (no fallible operation occurs
before the buffer insertion). -/
def pHandleE (cfg : PCfg) (_delegates : List DelegateE) (s : PState) (e : PEvent) :
    Except String (PState × List String) :=
  if pWillHandle cfg.level e then
    Except.ok ({ s with buffer := insertIntoBuffer s.buffer e EventOrigin.Backend }, [])
  else Except.ok (s, [])

/-- Error-aware `handleFrontendEvent`: the flush loop delegates through
`flushEntryE`, which absorbs every delegate failure. -/
def pHandleFrontendEventE (cfg : PCfg) (delegates : List DelegateE) (s : PState)
    (e : PEvent) : Except String (PState × List String) :=
  if pWillHandle cfg.level e then
    let buf := insertIntoBuffer s.buffer e EventOrigin.Frontend
    let count := countLe buf e.ts
    Except.ok
      ({ buffer := buf.drop count,
         flushed := s.flushed ++ (buf.take count).map (tagEvent cfg.backendBasePath) },
       (buf.take count).foldl
         (fun log entry => log ++ flushEntryE cfg.backendBasePath delegates entry) [])
  else Except.ok (s, [])

/-- Error-aware `close`: flush everything (delegate failures absorbed per
delegate); `delegate.close?.()` is a fire-and-forget call on a
promise-returning method, whose rejection does not reach the caller. -/
def pCloseE (cfg : PCfg) (delegates : List DelegateE) (s : PState) :
    Except String (PState × List String) :=
  Except.ok
    ({ buffer := [], flushed := s.flushed ++ s.buffer.map (tagEvent cfg.backendBasePath) },
     s.buffer.foldl (fun log entry => log ++ flushEntryE cfg.backendBasePath delegates entry) [])

/-- File system with failure injection: paths on which `appendFile`
rejects, and paths on which `stat` fails with a non-ENOENT error. -/
structure FSE where
  fs : FS
  failAppend : List String
  failStat : List String

def appendFE (fse : FSE) (name line : String) (now : Int) : Except String FSE :=
  if name ∈ fse.failAppend then Except.error "EIO: append failed"
  else Except.ok { fse with fs := appendF fse.fs name line now }

def statFE (fse : FSE) (name : String) : Except String (Option FileMeta) :=
  if name ∈ fse.failStat then Except.error "EIO: stat failed"
  else Except.ok (lookupF fse.fs name)

/-- Error-aware `processEvent`: a non-ENOENT stat failure during lazy init
is rethrown, and the final append may reject; rotation and cleanup
failures are swallowed inside their own try/catch (on the successful-stat
path the initialization coincides with the pure `initOnFirstWrite`). -/
def processEventE (cfg : WCfg) (s0 : WState) (fse0 : FSE) (e : WEvent) :
    Except String (WState × FSE) :=
  let init : Except String (WState × FSE) :=
    if s0.initialized then Except.ok (s0, fse0)
    else
      match statFE fse0 (activeName cfg) with
      | Except.error err => Except.error err
      | Except.ok _ =>
        let p := initOnFirstWrite cfg s0 fse0.fs e.ts
        Except.ok (p.1, { fse0 with fs := p.2 })
  match init with
  | Except.error err => Except.error err
  | Except.ok (s1, fse1) =>
    let eventDate := toDateString e.ts
    let p2 :=
      if eventDate ≠ s1.currentDateString then
        let fsDate := renameF fse1.fs (activeName cfg) (dateArchiveName cfg s1.currentDateString)
        ({ s1 with currentDateString := eventDate,
                   currentFileStartTime := toTimeString e.ts, currentFileSize := 0 },
         { fse1 with fs := fsDate })
      else (s1, fse1)
    let line := formatLogLine cfg e
    let bytes := line.utf8ByteSize
    let p3 :=
      if 0 < p2.1.currentFileSize ∧ cfg.maxFileSize < p2.1.currentFileSize + bytes then
        let fsSize := renameF p2.2.fs (activeName cfg) (sizeArchiveName cfg p2.1.currentDateString p2.1.currentFileStartTime)
        ({ p2.1 with currentFileStartTime := toTimeString e.ts, currentFileSize := 0 },
         { p2.2 with fs := fsSize })
      else p2
    match appendFE p3.2 (activeName cfg) line e.ts with
    | Except.error err => Except.error err
    | Except.ok fse4 =>
      Except.ok ({ p3.1 with currentFileSize := p3.1.currentFileSize + bytes }, fse4)

/-- Error-aware `handle` of the writer: the caller receives the un-caught
`pending` promise (second component: `some err` when it rejects), while
the queue's own `.catch` logs the error (third component) and keeps the
chain alive with the pre-event state for subsequent events. -/
def wHandleE (cfg : WCfg) (s : WState) (fse : FSE) (e : WEvent) :
    (WState × FSE) × Option String × List String :=
  if wWillHandle cfg e then
    match processEventE cfg s fse e with
    | Except.ok p => (p, none, [])
    | Except.error err =>
      ((s, fse), some err, ["Error in RotatingFileAppender.handle: " ++ err])
  else ((s, fse), none, [])

/-- C5 counterexample: when the append to the active file fails (e.g. disk
full), the promise returned by the Writer's `handle` rejects to the
caller — `handle` returns the un-caught `pending`, not the logged chain. -/
theorem c5_counterexample :
    ¬ ((wHandleE wcfgT ⟨toDateString tsT, toTimeString tsT, 0, true⟩
        ⟨[], [activeName wcfgT], []⟩ wEvBig).2.1 = none) := by
  decide

/-- C5 (amended): the Pipeline's entry points (handle, handleFrontendEvent,
close) never reject to the caller — every delegate failure is caught and
logged per delegate; the Writer logs every processing failure through the
queue's catch handler and keeps the chain alive, and its `handle` resolves
whenever no fallible operation fails, but the promise `handle` returns
rejects to the caller when that event's stat or append fails. -/
theorem c5_error_absorption :
    (∀ (cfg : PCfg) (delegates : List DelegateE) (s : PState) (e : PEvent),
      ∃ out, pHandleE cfg delegates s e = Except.ok out) ∧
    (∀ (cfg : PCfg) (delegates : List DelegateE) (s : PState) (e : PEvent),
      ∃ out, pHandleFrontendEventE cfg delegates s e = Except.ok out) ∧
    (∀ (cfg : PCfg) (delegates : List DelegateE) (s : PState),
      ∃ out, pCloseE cfg delegates s = Except.ok out) ∧
    (∀ (cfg : WCfg) (s : WState) (fse : FSE) (e : WEvent) (err : String),
      (wHandleE cfg s fse e).2.1 = some err →
      (wHandleE cfg s fse e).2.2 = ["Error in RotatingFileAppender.handle: " ++ err]) ∧
    (∀ (cfg : WCfg) (s : WState) (fse : FSE) (e : WEvent),
      fse.failStat = [] → fse.failAppend = [] →
      (wHandleE cfg s fse e).2.1 = none) := by
  refine ⟨?_, ?_, ?_, ?_, ?_⟩
  · intro cfg d s e
    rw [pHandleE]
    by_cases h : pWillHandle cfg.level e = true
    · rw [if_pos h]
      exact ⟨_, rfl⟩
    · rw [if_neg (by simpa using h)]
      exact ⟨_, rfl⟩
  · intro cfg d s e
    rw [pHandleFrontendEventE]
    by_cases h : pWillHandle cfg.level e = true
    · rw [if_pos h]
      exact ⟨_, rfl⟩
    · rw [if_neg (by simpa using h)]
      exact ⟨_, rfl⟩
  · intro cfg d s
    exact ⟨_, rfl⟩
  · intro cfg s fse e err
    rw [wHandleE]
    by_cases hw : wWillHandle cfg e = true
    · rw [if_pos hw]
      cases hp : processEventE cfg s fse e with
      | ok p => intro hc; simp at hc
      | error err2 =>
        intro hc
        simp only at hc
        injection hc with hc
        rw [← hc]
    · rw [if_neg (by simpa using hw)]
      intro hc
      simp at hc
  · intro cfg s fse e h1 h2
    rw [wHandleE]
    by_cases hw : wWillHandle cfg e = true
    swap
    · rw [if_neg (by simpa using hw)]
    rw [if_pos hw]
    have hok : ∃ p, processEventE cfg s fse e = Except.ok p := by
      rw [processEventE]
      have hstat : statFE fse (activeName cfg) =
          Except.ok (lookupF fse.fs (activeName cfg)) := by
        rw [statFE, h1, if_neg (List.not_mem_nil _)]
      have happ2 : ∀ X : FSE, X.failAppend = fse.failAppend →
          appendFE X (activeName cfg) (formatLogLine cfg e) e.ts =
            Except.ok { X with
              fs := appendF X.fs (activeName cfg) (formatLogLine cfg e) e.ts } := by
        intro X hX
        rw [appendFE, hX, h2, if_neg (List.not_mem_nil _)]
      by_cases hini : s.initialized = true
      · simp only [hini, if_true]
        by_cases hd : toDateString e.ts ≠ s.currentDateString
        · rw [if_pos hd]
          rw [if_neg (by simp)]
          rw [happ2]
          · exact ⟨_, rfl⟩
          · rfl
        · rw [if_neg hd]
          by_cases hsz : 0 < s.currentFileSize ∧
              cfg.maxFileSize < s.currentFileSize + (formatLogLine cfg e).utf8ByteSize
          · rw [if_pos hsz, happ2]
            · exact ⟨_, rfl⟩
            · rfl
          · rw [if_neg hsz, happ2]
            · exact ⟨_, rfl⟩
            · rfl
      · simp only [hini, Bool.false_eq_true, if_false, hstat]
        by_cases hd : toDateString e.ts ≠
            (initOnFirstWrite cfg s fse.fs e.ts).1.currentDateString
        · rw [if_pos hd]
          rw [if_neg (by simp)]
          rw [happ2]
          · exact ⟨_, rfl⟩
          · rfl
        · rw [if_neg hd]
          by_cases hsz : 0 < (initOnFirstWrite cfg s fse.fs e.ts).1.currentFileSize ∧
              cfg.maxFileSize < (initOnFirstWrite cfg s fse.fs e.ts).1.currentFileSize +
                (formatLogLine cfg e).utf8ByteSize
          · rw [if_pos hsz, happ2]
            · exact ⟨_, rfl⟩
            · rfl
          · rw [if_neg hsz, happ2]
            · exact ⟨_, rfl⟩
            · rfl
    obtain ⟨p, hp⟩ := hok
    rw [hp]

/-- C5 witness: a rejecting delegate is absorbed by the pipeline entry
points; a failing append is logged by the writer's queue handler while a
clean file system never rejects. -/
theorem c5_error_absorption_witness :
    (∃ out, pHandleE pcfg0 [⟨"BAD", fun _ => true, fun _ => Except.error "boom"⟩]
        PState.init (evAt 5) = Except.ok out) ∧
    (∃ out, pHandleFrontendEventE pcfg0 [⟨"BAD", fun _ => true, fun _ => Except.error "boom"⟩]
        PState.init (evAt 5) = Except.ok out) ∧
    (∃ out, pCloseE pcfg0 [⟨"BAD", fun _ => true, fun _ => Except.error "boom"⟩]
        PState.init = Except.ok out) ∧
    (wHandleE wcfgT ⟨toDateString tsT, toTimeString tsT, 0, true⟩
        ⟨[], [activeName wcfgT], []⟩ wEvBig).2.2 =
      ["Error in RotatingFileAppender.handle: " ++ "EIO: append failed"] ∧
    (wHandleE wcfgT ⟨toDateString tsT, toTimeString tsT, 0, true⟩ ⟨[], [], []⟩ wEvBig).2.1 =
      none :=
  ⟨c5_error_absorption.1 pcfg0 _ PState.init (evAt 5),
   c5_error_absorption.2.1 pcfg0 _ PState.init (evAt 5),
   c5_error_absorption.2.2.1 pcfg0 _ PState.init,
   c5_error_absorption.2.2.2.1 wcfgT ⟨toDateString tsT, toTimeString tsT, 0, true⟩
     ⟨[], [activeName wcfgT], []⟩ wEvBig "EIO: append failed" (by decide),
   c5_error_absorption.2.2.2.2 wcfgT ⟨toDateString tsT, toTimeString tsT, 0, true⟩
     ⟨[], [], []⟩ wEvBig rfl rfl⟩
